import Mathlib

/-!
# Verification of the index-derivative lowering pass

Shallow embedding of `devito/passes/clusters/derivatives.py`:
the derivative lowering engine (`lower_index_derivatives`,
`_lower_index_derivatives`, `_core`) and common derivative elimination
(`CDE`).  Collaborator operations that the pass consumes (iteration-space
union/projection/translation, the prefix-grouped `Queue` traversal, the
symbol registry) are not part of the given sources; they are modelled from
the specification where indicated.
-/

namespace Devito

/-- Result dtypes carried by symbols and weight functions. -/
inductive Dtype where
  | f32
  | f64
  | i32
deriving DecidableEq, Repr

/-- A scalar symbol (`devito.types.Symbol`): a name plus a dtype. -/
structure SSymbol where
  name : String
  dtype : Dtype
deriving DecidableEq, Repr

/-- A `StencilDimension`: symbolic lower/upper bound and a backward flag. -/
structure StencilDim where
  name : String
  lo : Int
  hi : Int
  backward : Bool
deriving DecidableEq, Repr

/-- A dimension: either a plain (grid/time) dimension or a stencil dimension. -/
inductive Dim where
  | plain (name : String)
  | stencil (sd : StencilDim)
deriving DecidableEq, Repr

/-- Iteration direction of a dimension. -/
inductive Direction where
  | forward
  | backward
deriving DecidableEq, Repr

/-- A concrete weights function: identified by its coefficient tuple,
carrying a name and the result dtype. -/
structure WFunction where
  name : String
  coeffs : List Int
  dtype : Dtype
deriving DecidableEq, Repr

/-- Equation operation tag: `none` models plain `Eq`, `some .inc` models
`Inc` (augmented assignment `+=`). -/
inductive OpK where
  | inc
deriving DecidableEq, Repr

/-- Symbolic expressions.  `indexed` is an array access (one combined index
expression; multi-indices are encoded with `pair`), `windex` is the indexed
access into a weights function, `deriv` is an `IndexDerivative` node wrapping
a base expression, its weights function, its stencil dimensions and its
result dtype, and `eqn` is an (`Eq`/`Inc`) equation node. -/
inductive Expr where
  | sym (s : SSymbol)
  | num (n : Int)
  | dimref (d : Dim)
  | indexed (a : String) (ix : Expr)
  | windex (w : WFunction) (ds : List StencilDim)
  | add (a b : Expr)
  | mul (a b : Expr)
  | pair (a b : Expr)
  | eqn (op : Option OpK) (l r : Expr)
  | deriv (base : Expr) (w : WFunction) (ds : List StencilDim) (dt : Dtype)
deriving DecidableEq, Repr

/-- An interval of an iteration space: a dimension plus its lower/upper
offsets relative to the dimension's own bounds. -/
structure Interval where
  dim : Dim
  lower : Int
  upper : Int
deriving DecidableEq, Repr

/-- An iteration space: ordered intervals, per-dimension directions, and
nesting relations. -/
structure ISpace where
  intervals : List Interval
  directions : List (Dim × Direction)
  relations : List (List Dim)
deriving DecidableEq, Repr

/-- The ordered dimensions of an iteration space. -/
def ISpace.itdims (i : ISpace) : List Dim :=
  i.intervals.map Interval.dim

/-- Membership of a dimension in an iteration space (`d in c.ispace`). -/
def ISpace.hasDim (i : ISpace) (d : Dim) : Bool :=
  i.itdims.contains d

/-- Lookup of the interval of a dimension. -/
def ISpace.find? (i : ISpace) (d : Dim) : Option Interval :=
  i.intervals.find? (fun iv => iv.dim = d)

/-- Hull of an interval with the matching interval of another space, if
any: the per-interval step of `union`. -/
def hullWith (b : ISpace) (iv : Interval) : Interval :=
  match b.find? iv.dim with
  | some jv => { iv with lower := min iv.lower jv.lower,
                         upper := max iv.upper jv.upper }
  | none => iv

/-- Modelled from the spec: `IterationSpace.union` (§4.3, §4.4 step 4 of the
lowering engine).  Intervals of dimensions present in both spaces are merged
by hull; dimensions only in the right operand are appended after all left
dimensions, realizing the extra relation that forces the new dimensions to
nest inside all pre-existing ones.  The relations of both spaces and the
extra relations are kept. -/
def ISpace.union (a b : ISpace) (extra : List (List Dim)) : ISpace :=
  { intervals :=
      a.intervals.map (hullWith b)
      ++ b.intervals.filter (fun jv => !(a.itdims.contains jv.dim)),
    directions :=
      a.directions ++ b.directions.filter (fun p => !(a.itdims.contains p.1)),
    relations := a.relations ++ b.relations ++ extra }

/-- Shift of one interval by a constant, if it belongs to the translated
dimension: the per-interval step of `translate`. -/
def translateIv (d : Dim) (v : Int) (iv : Interval) : Interval :=
  if iv.dim = d then { iv with lower := iv.lower + v, upper := iv.upper + v }
  else iv

/-- Modelled from the spec: `IterationSpace.translate` (§4.3): shift the
interval of dimension `d` by the constant `v`. -/
def ISpace.translate (i : ISpace) (d : Dim) (v : Int) : ISpace :=
  { i with intervals := i.intervals.map (translateIv d v) }

/-- Modelled from the spec: `IterationSpace.project` (§4.3): keep only the
dimensions satisfying the predicate. -/
def ISpace.project (i : ISpace) (p : Dim → Bool) : ISpace :=
  { intervals := i.intervals.filter (fun iv => p iv.dim),
    directions := i.directions.filter (fun dv => p dv.1),
    relations := i.relations.map (fun r => r.filter p) }

/-- A Cluster: an ordered group of equations bound to one iteration space. -/
structure Cluster where
  exprs : List Expr
  ispace : ISpace
deriving DecidableEq, Repr

/-- `q_leaf`: atoms and indexed accesses are leaves of the rewrite. -/
def qLeaf : Expr → Bool
  | .sym _ => true
  | .num _ => true
  | .dimref _ => true
  | .indexed _ _ => true
  | .windex _ _ => true
  | _ => false

/-- `filter_ordered`: deduplicate, keeping the first occurrence of each
element. -/
def filterOrdered : List StencilDim → List StencilDim
  | [] => []
  | d :: ds => d :: (filterOrdered ds).filter (fun x => x ≠ d)

/-- Deep retrieval of all dimensions occurring in an expression
(`retrieve_dimensions(expr, deep=True)`). -/
def collectDims : Expr → List Dim
  | .sym _ => []
  | .num _ => []
  | .dimref d => [d]
  | .indexed _ ix => collectDims ix
  | .windex _ ds => ds.map Dim.stencil
  | .add a b => collectDims a ++ collectDims b
  | .mul a b => collectDims a ++ collectDims b
  | .pair a b => collectDims a ++ collectDims b
  | .eqn _ l r => collectDims l ++ collectDims r
  | .deriv b _ ds _ => collectDims b ++ ds.map Dim.stencil

/-- Extract the stencil dimension of a `Dim`, if any. -/
def asStencil : Dim → Option StencilDim
  | .plain _ => none
  | .stencil sd => some sd

/-- The deduplicated, first-seen-ordered stencil dimensions of an expression
(lines 102-103 of `_core`). -/
def stencilDimsOf (e : Expr) : List StencilDim :=
  filterOrdered ((collectDims e).filterMap asStencil)

/-- Replace the weights function `w0` by `w` everywhere in an expression
(the `uxreplace` call of line 100 of `_core`, which maps `w0.indexed` to
`w.indexed`). -/
def replaceW (w0 w : WFunction) : Expr → Expr
  | .sym s => .sym s
  | .num n => .num n
  | .dimref d => .dimref d
  | .indexed a ix => .indexed a (replaceW w0 w ix)
  | .windex u ds => .windex (if u = w0 then w else u) ds
  | .add a b => .add (replaceW w0 w a) (replaceW w0 w b)
  | .mul a b => .mul (replaceW w0 w a) (replaceW w0 w b)
  | .pair a b => .pair (replaceW w0 w a) (replaceW w0 w b)
  | .eqn op l r => .eqn op (replaceW w0 w l) (replaceW w0 w r)
  | .deriv b u ds dt => .deriv (replaceW w0 w b) (if u = w0 then w else u) ds dt

/-- Substitute the stencil dimension `d` by the expression `rep`
(`base.subs(d, ...)`, line 138 of `_core`).  The dimension lists of weights
accesses are untouched: `subs` is applied to `expr.base` only, which contains
no weights access. -/
def substDim (d : StencilDim) (rep : Expr) : Expr → Expr
  | .sym s => .sym s
  | .num n => .num n
  | .dimref d' => if d' = Dim.stencil d then rep else .dimref d'
  | .indexed a ix => .indexed a (substDim d rep ix)
  | .windex u ds => .windex u ds
  | .add a b => .add (substDim d rep a) (substDim d rep b)
  | .mul a b => .mul (substDim d rep a) (substDim d rep b)
  | .pair a b => .pair (substDim d rep a) (substDim d rep b)
  | .eqn op l r => .eqn op (substDim d rep l) (substDim d rep r)
  | .deriv b u ds dt => .deriv (substDim d rep b) u ds dt

/-- `e.lhs` of an equation node (identity on other nodes). -/
def lhsOf : Expr → Expr
  | .eqn _ l _ => l
  | e => e

/-- `e.rhs` of an equation node (identity on other nodes). -/
def rhsOf : Expr → Expr
  | .eqn _ _ r => r
  | e => e

/-- `e.operation` of an equation node. -/
def opOf : Expr → Option OpK
  | .eqn op _ _ => op
  | _ => none

/-- Whether an expression is an equation node. -/
def isEqn : Expr → Bool
  | .eqn _ _ _ => true
  | _ => false

/-- Whether an expression contains an `IndexDerivative` node. -/
def hasDeriv : Expr → Bool
  | .sym _ => false
  | .num _ => false
  | .dimref _ => false
  | .indexed _ _ => false
  | .windex _ _ => false
  | .add a b => hasDeriv a || hasDeriv b
  | .mul a b => hasDeriv a || hasDeriv b
  | .pair a b => hasDeriv a || hasDeriv b
  | .eqn _ l r => hasDeriv l || hasDeriv r
  | .deriv _ _ _ _ => true

/-- Name minted by the symbol registry for the weights counter `k`
(`sregistry.make_name(prefix='w')`). -/
def wname (k : Nat) : String := "w" ++ Nat.repr k

/-- Name minted by the symbol registry for the temporaries counter `k`
(`sregistry.make_name(prefix='r')`). -/
def rname (k : Nat) : String := "r" ++ Nat.repr k

/-- Association lookup keyed by coefficient tuples (the `weights` dict). -/
def wlookup (k : List Int) : List (List Int × WFunction) → Option WFunction
  | [] => none
  | (k', w) :: rest => if k' = k then some w else wlookup k rest

/-- Association lookup keyed by expressions. -/
def elookup (k : Expr) : List (Expr × Expr) → Option Expr
  | [] => none
  | (k', v) :: rest => if k' = k then some v else elookup k rest

/-- Association lookup in the lowering map. -/
def mlookup (k : Expr) : List (Expr × List SSymbol) → Option (List SSymbol)
  | [] => none
  | (k', v) :: rest => if k' = k then some v else mlookup k rest

/-- `mapper.setdefault(key, []).append(s)` (line 143 of `_core`). -/
def mapperAdd (m : List (Expr × List SSymbol)) (k : Expr) (s : SSymbol) :
    List (Expr × List SSymbol) :=
  match m with
  | [] => [(k, [s])]
  | (k', v) :: rest =>
    if k' = k then (k', v ++ [s]) :: rest else (k', v) :: mapperAdd rest k s

/-- The threaded mutable state of one run of the pass: the weights registry,
the lowering map, the two unique-name counters of the symbol registry, and
the per-equation reuse pool. -/
structure St where
  weights : List (List Int × WFunction)
  mapper : List (Expr × List SSymbol)
  wctr : Nat
  rctr : Nat
  pool : List SSymbol
deriving DecidableEq, Repr

/-- Weight resolution (lines 92-99 of `_core`): a fresh name is minted
unconditionally; the registry entry for the coefficient tuple is reused if
present, otherwise a new weights function with the derivative's dtype is
registered. -/
def resolveW (w0 : WFunction) (dt : Dtype) (st : St) : WFunction × St :=
  let nm := wname st.wctr
  let st1 : St := { st with wctr := st.wctr + 1 }
  match wlookup w0.coeffs st1.weights with
  | some w => (w, st1)
  | none =>
    let w : WFunction := { name := nm, coeffs := w0.coeffs, dtype := dt }
    (w, { st1 with weights := st1.weights ++ [(w0.coeffs, w)] })

/-- A pop policy for the reuse pool, modelling the unspecified iteration
order of `set.pop()`. -/
def Pick : Type := List SSymbol → Option (SSymbol × List SSymbol)

/-- A valid pop policy returns nothing on the empty pool and otherwise
removes exactly one element. -/
def PickValid (p : Pick) : Prop :=
  p [] = none ∧
  ∀ a l, ∃ x rest, p (a :: l) = some (x, rest) ∧ (a :: l).Perm (x :: rest)

/-- The canonical pop policy: pop the first element. -/
def pickHead : Pick
  | [] => none
  | x :: rest => some (x, rest)

/-- An alternative pop policy: pop the last element. -/
def pickLast : Pick
  | [] => none
  | a :: l =>
    match pickLast l with
    | none => some (a, [])
    | some (x, rest) => some (x, a :: rest)

/-- Errors by which the pass can abort: the dtype assertion of a reused
accumulator (line 126) and the out-of-range `dims[-1]` access (line 131). -/
inductive Err where
  | assertionError
  | indexError
deriving DecidableEq, Repr

/-- The init-space projection (lines 130-131 of `_core`):
`ispace.project(lambda d: d is not dims[-1])`.  The lambda is evaluated
lazily, once per interval of the space: with a non-empty space and an empty
`dims`, the `dims[-1]` access raises `IndexError`. -/
def projectNotLast (isp : ISpace) (dims : List StencilDim) :
    Except Err ISpace :=
  match isp.intervals, dims.getLast? with
  | [], _ => .ok (isp.project (fun _ => true))
  | _ :: _, none => .error .indexError
  | _ :: _, some dl => .ok (isp.project (fun d => d ≠ Dim.stencil dl))

/-- The stencil dimensions of a derivative node that are new to the
enclosing cluster's iteration space (lines 102-109 of `_core`): deep
retrieval, first-seen dedup, reversed, then dimensions already in
`c.ispace` dropped. -/
def newDims (e : Expr) (c : Cluster) : List StencilDim :=
  ((stencilDimsOf e).reverse).filter (fun d => !(c.ispace.hasDim (Dim.stencil d)))

/-- The merged, 0-renormalized iteration space of the accumulation Cluster
(lines 111-122 of `_core`). -/
def accSpace (c : Cluster) (dims : List StencilDim) : ISpace :=
  let intervals := dims.map (fun d => Interval.mk (Dim.stencil d) 0 0)
  let dirs := dims.map (fun d =>
    (Dim.stencil d, if d.backward then Direction.backward else Direction.forward))
  let ispace0 : ISpace := ⟨intervals, dirs, []⟩
  let extra := [c.ispace.itdims ++ dims.map Dim.stencil]
  let isp := ISpace.union c.ispace ispace0 extra
  dims.foldl (fun i d => i.translate (Dim.stencil d) (-d.lo)) isp

/-- `expr.base` of a derivative node. -/
def derivBase : Expr → Expr
  | .deriv b _ _ _ => b
  | e => e

/-- `expr.weights` of a derivative node: the indexed weights access. -/
def derivWeights : Expr → Expr
  | .deriv _ w ds _ => .windex w ds
  | e => e

/-- The shifted base of the accumulation expression (lines 136-138 of
`_core`): every new dimension `d` is substituted by `d + d._min`. -/
def shiftBase (b : Expr) (dims : List StencilDim) : Expr :=
  dims.foldl (fun e d => substDim d (Expr.add (.dimref (.stencil d)) (.num d.lo)) e) b

/-- The derivative-node part of `_core` (lines 92-145), entered with the
already-rewritten base `b1` and the side clusters `processed` produced while
rewriting it.  Resolves the weight symbol, computes the new dimensions and
the merged 0-renormalized space, obtains an accumulator (pool pop with dtype
assertion, else a fresh `r` symbol), emits the init Cluster in front of
`processed` and the accumulation Cluster behind it, records the accumulation
right-hand side in the lowering map, and returns the accumulator symbol. -/
def lowerDeriv (pick : Pick) (b1 : Expr) (w0 : WFunction) (ds : List StencilDim)
    (dt : Dtype) (c : Cluster) (processed : List Cluster) (st : St) :
    Except Err (Expr × List Cluster × St) :=
  let rw := resolveW w0 dt st
  let w := rw.1
  let st1 := rw.2
  let expr := replaceW w0 w (Expr.deriv b1 w0 ds dt)
  let dims := newDims expr c
  let ispace := accSpace c dims
  let popped : Except Err (SSymbol × St) :=
    match pick st1.pool with
    | some (s, rest) =>
      if s.dtype = w.dtype then .ok (s, { st1 with pool := rest })
      else .error .assertionError
    | none =>
      .ok (⟨rname st1.rctr, w.dtype⟩, { st1 with rctr := st1.rctr + 1 })
  match popped with
  | .error err => .error err
  | .ok (s, st2) =>
    match projectNotLast ispace dims with
    | .error err => .error err
    | .ok ispace1 =>
      let expr0 := Expr.eqn none (.sym s) (.num 0)
      let initC : Cluster := ⟨[expr0], ispace1⟩
      let base := shiftBase (derivBase expr) dims
      let expr1 := Expr.eqn (some .inc) (.sym s) (Expr.mul base (derivWeights expr))
      let accC : Cluster := ⟨[expr1], ispace⟩
      let st3 := { st2 with mapper := mapperAdd st2.mapper (rhsOf expr1) s }
      .ok (.sym s, initC :: processed ++ [accC], st3)

/-- `_core`: the recursive, post-order rewrite of one expression.  Leaves
return unchanged; inner nodes are rebuilt from their rewritten children;
a derivative node is then replaced by its accumulator via `lowerDeriv`. -/
def core (pick : Pick) : Expr → Cluster → St → Except Err (Expr × List Cluster × St)
  | .sym s, _, st => .ok (.sym s, [], st)
  | .num n, _, st => .ok (.num n, [], st)
  | .dimref d, _, st => .ok (.dimref d, [], st)
  | .indexed a ix, _, st => .ok (.indexed a ix, [], st)
  | .windex w ds, _, st => .ok (.windex w ds, [], st)
  | .add a b, c, st =>
    match core pick a c st with
    | .error err => .error err
    | .ok (a1, v1, st1) =>
      match core pick b c st1 with
      | .error err => .error err
      | .ok (b1, v2, st2) => .ok (.add a1 b1, v1 ++ v2, st2)
  | .mul a b, c, st =>
    match core pick a c st with
    | .error err => .error err
    | .ok (a1, v1, st1) =>
      match core pick b c st1 with
      | .error err => .error err
      | .ok (b1, v2, st2) => .ok (.mul a1 b1, v1 ++ v2, st2)
  | .pair a b, c, st =>
    match core pick a c st with
    | .error err => .error err
    | .ok (a1, v1, st1) =>
      match core pick b c st1 with
      | .error err => .error err
      | .ok (b1, v2, st2) => .ok (.pair a1 b1, v1 ++ v2, st2)
  | .eqn op l r, c, st =>
    match core pick l c st with
    | .error err => .error err
    | .ok (l1, v1, st1) =>
      match core pick r c st1 with
      | .error err => .error err
      | .ok (r1, v2, st2) => .ok (.eqn op l1 r1, v1 ++ v2, st2)
  | .deriv b w0 ds dt, c, st =>
    match core pick b c st with
    | .error err => .error err
    | .ok (b1, v1, st1) => lowerDeriv pick b1 w0 ds dt c v1 st1

/-- Optimization 1 (lines 44-49 of `_lower_index_derivatives`): the reuse
pool of one source equation holds the destination symbol exactly when the
left side is a bare Symbol and the equation has no augmented operation. -/
def poolOf : Expr → List SSymbol
  | .eqn none (.sym s) _ => [s]
  | _ => []

/-- One `_core` call as issued per source equation: the reuse pool is set up
fresh from the equation before descending. -/
def lowerEq (pick : Pick) (c : Cluster) (e : Expr) (st : St) :
    Except Err (Expr × List Cluster × St) :=
  core pick e c { st with pool := poolOf e }

/-- The accumulator of `_lower_index_derivatives`: output clusters so far,
the buffered rewritten equations of the current cluster, and the threaded
state. -/
structure Acc where
  processed : List Cluster
  buf : List Expr
  st : St
deriving DecidableEq, Repr

/-- `dump`: flush the buffered equations as one rebuilt Cluster (a no-op on
an empty buffer). -/
def dumpBuf (c : Cluster) (a : Acc) : Acc :=
  if a.buf = [] then a
  else { a with processed := a.processed ++ [⟨a.buf, c.ispace⟩], buf := [] }

/-- The per-equation loop body of `_lower_index_derivatives` (lines 43-66):
rewrite the equation, flush the buffer before appending the newly produced
clusters, and drop the equation when it degenerated to `r = r`. -/
def lowerStep (pick : Pick) (c : Cluster) (a : Acc) (e : Expr) : Except Err Acc :=
  match lowerEq pick c e a.st with
  | .error err => .error err
  | .ok (expr, v, st1) =>
    let a1 : Acc := { a with st := st1 }
    let a2 := if v = [] then a1
      else { dumpBuf c a1 with processed := (dumpBuf c a1).processed ++ v }
    if lhsOf e = rhsOf expr then .ok a2
    else .ok { a2 with buf := a2.buf ++ [expr] }

/-- The per-cluster loop of `_lower_index_derivatives` (lines 41-68). -/
def lowerCluster (pick : Pick) (a : Acc) (c : Cluster) : Except Err Acc :=
  match c.exprs.foldlM (lowerStep pick c) { a with buf := [] } with
  | .error err => .error err
  | .ok a1 => .ok (dumpBuf c a1)

/-- `_lower_index_derivatives`: fresh weights registry and lowering map, the
name counters of the symbol registry given by `wc`/`rc`. -/
def lowerAll (pick : Pick) (cs : List Cluster) (wc rc : Nat) : Except Err Acc :=
  cs.foldlM (lowerCluster pick) ⟨[], [], ⟨[], [], wc, rc, []⟩⟩

/-- `uxreplace` with an expression-keyed substitution map: a node matching a
key is replaced whole, otherwise its children are rewritten. -/
def uxreplace (sigma : List (Expr × Expr)) (e : Expr) : Expr :=
  match elookup e sigma with
  | some r => r
  | none =>
    match e with
    | .sym s => .sym s
    | .num n => .num n
    | .dimref d => .dimref d
    | .indexed a ix => .indexed a (uxreplace sigma ix)
    | .windex w ds => .windex w ds
    | .add a b => .add (uxreplace sigma a) (uxreplace sigma b)
    | .mul a b => .mul (uxreplace sigma a) (uxreplace sigma b)
    | .pair a b => .pair (uxreplace sigma a) (uxreplace sigma b)
    | .eqn op l r => .eqn op (uxreplace sigma l) (uxreplace sigma r)
    | .deriv b w ds dt => .deriv (uxreplace sigma b) w ds dt

/-- `CDE.__init__` (line 157): keep only right-hand sides recorded with two
or more accumulator symbols. -/
def cdeFilter (m : List (Expr × List SSymbol)) : List (Expr × List SSymbol) :=
  m.filter (fun kv => 1 < kv.2.length)

/-- The global state of the CDE traversal: the cross-prefix substitution
table `subs0` and the set of already-processed clusters. -/
structure CState where
  subs0 : List (Expr × Expr)
  seen : List Cluster
deriving DecidableEq, Repr

/-- The merged substitution of `CDE.callback` line 187: local entries win
over global ones. -/
def mergeSubs (subs0 subs : List (Expr × Expr)) : List (Expr × Expr) :=
  subs ++ subs0

/-- The per-equation body of `CDE.callback` (lines 171-187), threading
(kept equations, local table `subs`, global table `subs0`). -/
def cdeExprStep (fm : List (Expr × List SSymbol))
    (acc : List Expr × List (Expr × Expr) × List (Expr × Expr)) (e : Expr) :
    List Expr × List (Expr × Expr) × List (Expr × Expr) :=
  let exprs := acc.1
  let subs := acc.2.1
  let subs0 := acc.2.2
  let k := lhsOf e
  let v := rhsOf e
  if (elookup k subs0).isSome then (exprs, subs, subs0)
  else
    match elookup v subs with
    | some w => (exprs, subs, subs0 ++ [(k, w)])
    | none =>
      if (mlookup v fm).isSome then (exprs ++ [e], subs ++ [(v, k)], subs0)
      else (exprs ++ [uxreplace (mergeSubs subs0 subs) e], subs, subs0)

/-- The per-cluster body of `CDE.callback` (lines 165-189): clusters already
seen pass through; otherwise the cluster is rebuilt from its kept equations,
threading the local and global tables. -/
def cdeClusterStep (fm : List (Expr × List SSymbol)) (seen : List Cluster)
    (acc : List Cluster × List (Expr × Expr) × List (Expr × Expr)) (c : Cluster) :
    List Cluster × List (Expr × Expr) × List (Expr × Expr) :=
  if c ∈ seen then (acc.1 ++ [c], acc.2.1, acc.2.2)
  else
    let r := c.exprs.foldl (cdeExprStep fm) ([], acc.2.1, acc.2.2)
    (acc.1 ++ [⟨r.1, c.ispace⟩], r.2.1, r.2.2)

/-- `CDE.callback` (lines 162-193): the local table starts empty per
invocation and is shared by all clusters of the invocation; all produced
clusters are marked seen at the end. -/
def cdeCallback (fm : List (Expr × List SSymbol)) (clusters : List Cluster)
    (st : CState) : List Cluster × CState :=
  let out := clusters.foldl (cdeClusterStep fm st.seen) ([], [], st.subs0)
  (out.1, ⟨out.2.2, out.1.foldl (fun s c => if c ∈ s then s else s ++ [c]) st.seen⟩)

/-- Consecutive grouping of clusters by a key, order-preserving. -/
def groupRuns (key : Cluster → List Dim) : List Cluster → List (List Dim × List Cluster)
  | [] => []
  | c :: cs =>
    match groupRuns key cs with
    | [] => [(key c, [c])]
    | (k, g) :: rest =>
      if key c = k then (key c, c :: g) :: rest
      else (key c, [c]) :: (k, g) :: rest

/-- Modelled from the spec: the prefix key of the `Queue` traversal (§4.4):
the leading `level` iteration-space dimensions of a cluster. -/
def ckey (level : Nat) (c : Cluster) : List Dim :=
  c.ispace.itdims.take level

/-- Modelled from the spec: the `Queue._process_fdta` traversal (§4.4, §9),
which is not part of the given sources.  Clusters are grouped by shared
leading iteration-space dimensions; groups whose prefix is shorter than the
level are kept as they are, full-prefix groups are processed recursively at
the next level; the callback is applied to the reassembled sequence of each
level.  The recursion is bounded by `fuel`; the entry point supplies more
fuel than the deepest iteration space. -/
def fdta (fm : List (Expr × List SSymbol)) :
    Nat → Nat → List Cluster → CState → List Cluster × CState
  | 0, _, clusters, st => cdeCallback fm clusters st
  | fuel + 1, level, clusters, st =>
    let gs := groupRuns (ckey level) clusters
    let r := gs.foldl (fun (acc : List Cluster × CState) kg =>
      if kg.1.length < level then (acc.1 ++ kg.2, acc.2)
      else
        let q := fdta fm fuel (level + 1) kg.2 acc.2
        (acc.1 ++ q.1, q.2)) ([], st)
    cdeCallback fm r.1 r.2

/-- `CDE(mapper).process(clusters)`: filter the lowering map to
multiplicities of at least 2, then run the prefix-grouped traversal with an
empty global table and an empty seen set. -/
def cdeProcess (m : List (Expr × List SSymbol)) (clusters : List Cluster) :
    List Cluster :=
  let depth := clusters.foldl (fun n c => max n c.ispace.itdims.length) 0
  (fdta (cdeFilter m) (depth + 1) 1 clusters ⟨[], []⟩).1

/-- `lower_index_derivatives`: lower, return the rewritten sequence at once
if no weights were created, otherwise run the external fusion transform
(skipped in `noop` mode) and then CDE.  The fusion transform is an external
collaborator and is passed in as `fuseFn`. -/
def lowerIndexDerivatives (fuseFn : List Cluster → List Cluster) (pick : Pick)
    (mode : Option String) (cs : List Cluster) (wc rc : Nat) :
    Except Err (List Cluster) :=
  match lowerAll pick cs wc rc with
  | .error err => .error err
  | .ok a =>
    if a.st.weights = [] then .ok a.processed
    else
      let cs1 := if mode ≠ some "noop" then fuseFn a.processed else a.processed
      .ok (cdeProcess a.st.mapper cs1)

/-! ## Concrete fixtures used by witnesses and counterexamples -/

/-- A plain grid dimension `x`. -/
def xdim : Dim := .plain "x"

/-- A one-dimensional iteration space over `x`. -/
def ispX : ISpace := ⟨[⟨xdim, 0, 0⟩], [(xdim, .forward)], []⟩

/-- Stencil dimension of the inner derivative, bounds [-1, 1]. -/
def i0 : StencilDim := ⟨"i0", -1, 1, false⟩

/-- Stencil dimension of the outer derivative, bounds [-1, 1]. -/
def i1 : StencilDim := ⟨"i1", -1, 1, false⟩

/-- The destination symbol `u`. -/
def usym : SSymbol := ⟨"u", .f32⟩

/-- Further scalar symbols. -/
def psym : SSymbol := ⟨"p", .f32⟩

def qsym : SSymbol := ⟨"q", .f32⟩

def asym : SSymbol := ⟨"a", .f32⟩

def bsym : SSymbol := ⟨"b", .f32⟩

/-- The symbolic weights table of the inner derivative. -/
def w0in : WFunction := ⟨"wi", [1, -2, 1], .f32⟩

/-- The symbolic weights table of the outer derivative (equal tuple). -/
def w0out : WFunction := ⟨"wo", [1, -2, 1], .f32⟩

/-- Base of the inner derivative: `a[x + i0]`. -/
def baseIn : Expr := .indexed "a" (.add (.dimref xdim) (.dimref (.stencil i0)))

/-- The inner derivative node `D(a)`. -/
def derivIn : Expr := .deriv baseIn w0in [i0] .f32

/-- The outer derivative node `D(D(a))`. -/
def derivOut : Expr := .deriv derivIn w0out [i1] .f32

/-- The source equation `u = D(D(a))`. -/
def eqU : Expr := .eqn none (.sym usym) derivOut

/-- The input cluster holding `u = D(D(a))`. -/
def cIn : Cluster := ⟨[eqU], ispX⟩

/-! ## Helper lemmas -/

/-- `uxreplace` with an empty substitution is the identity. -/
theorem uxreplace_nil (e : Expr) : uxreplace [] e = e := by
  induction e with
  | sym s => rfl
  | num n => rfl
  | dimref d => rfl
  | indexed a ix ih => simp [uxreplace, elookup, ih]
  | windex w ds => rfl
  | add a b iha ihb => simp [uxreplace, elookup, iha, ihb]
  | mul a b iha ihb => simp [uxreplace, elookup, iha, ihb]
  | pair a b iha ihb => simp [uxreplace, elookup, iha, ihb]
  | eqn op l r ihl ihr => simp [uxreplace, elookup, ihl, ihr]
  | deriv b w ds dt ih => simp [uxreplace, elookup, ih]

/-- `_core` is the identity (no side clusters, no state change) on an
expression containing no derivative node. -/
theorem core_noDeriv (pick : Pick) :
    ∀ (e : Expr) (c : Cluster) (st : St), hasDeriv e = false →
      core pick e c st = .ok (e, [], st) := by
  intro e
  induction e with
  | sym s => intro c st _; rfl
  | num n => intro c st _; rfl
  | dimref d => intro c st _; rfl
  | indexed a ix _ => intro c st _; rfl
  | windex w ds => intro c st _; rfl
  | add a b iha ihb =>
    intro c st h
    simp only [hasDeriv, Bool.or_eq_false_iff] at h
    simp [core, iha c st h.1, ihb c st h.2]
  | mul a b iha ihb =>
    intro c st h
    simp only [hasDeriv, Bool.or_eq_false_iff] at h
    simp [core, iha c st h.1, ihb c st h.2]
  | pair a b iha ihb =>
    intro c st h
    simp only [hasDeriv, Bool.or_eq_false_iff] at h
    simp [core, iha c st h.1, ihb c st h.2]
  | eqn op l r ihl ihr =>
    intro c st h
    simp only [hasDeriv, Bool.or_eq_false_iff] at h
    simp [core, ihl c st h.1, ihr c st h.2]
  | deriv b w ds dt _ =>
    intro c st h
    simp [hasDeriv] at h

/-- Reduction of a bind on a successful `Except` value. -/
theorem okBind {α β : Type} {ε : Type} (a : α) (f : α → Except ε β) :
    (Except.ok a >>= f) = f a := rfl

/-- Folding the equation loop over derivative-free, non-degenerate equations
buffers them all unchanged; only the pool field of the state is touched. -/
theorem lowerFold_noDeriv (pick : Pick) (c : Cluster) :
    ∀ (es : List Expr) (a : Acc),
      (∀ e ∈ es, hasDeriv e = false ∧ isEqn e = true ∧ lhsOf e ≠ rhsOf e) →
      ∃ p, es.foldlM (lowerStep pick c) a =
        .ok ⟨a.processed, a.buf ++ es, { a.st with pool := p }⟩ := by
  intro es
  induction es with
  | nil =>
    intro a _
    refine ⟨a.st.pool, ?_⟩
    simp only [List.foldlM_nil, List.append_nil]
    rfl
  | cons e es ih =>
    intro a h
    obtain ⟨h1, _, h3⟩ := h e (List.mem_cons_self e es)
    have hstep : lowerStep pick c a e =
        .ok ⟨a.processed, a.buf ++ [e], { a.st with pool := poolOf e }⟩ := by
      unfold lowerStep lowerEq
      rw [core_noDeriv pick e c { a.st with pool := poolOf e } h1]
      simp [h3]
    obtain ⟨p, hp⟩ := ih ⟨a.processed, a.buf ++ [e], { a.st with pool := poolOf e }⟩
      (fun e' he' => h e' (List.mem_cons_of_mem _ he'))
    refine ⟨p, ?_⟩
    simp only [List.foldlM_cons, hstep, okBind]
    simpa [List.append_assoc] using hp

/-- One derivative-free cluster is rebuilt identically by the cluster loop. -/
theorem lowerCluster_noDeriv (pick : Pick) (c : Cluster) (a : Acc)
    (hne : c.exprs ≠ [])
    (h : ∀ e ∈ c.exprs, hasDeriv e = false ∧ isEqn e = true ∧ lhsOf e ≠ rhsOf e) :
    ∃ p, lowerCluster pick a c =
      .ok ⟨a.processed ++ [c], [], { a.st with pool := p }⟩ := by
  obtain ⟨p, hp⟩ := lowerFold_noDeriv pick c c.exprs ⟨a.processed, [], a.st⟩ h
  refine ⟨p, ?_⟩
  unfold lowerCluster
  have : ({ a with buf := [] } : Acc) = ⟨a.processed, [], a.st⟩ := rfl
  rw [this, hp]
  simp [dumpBuf, hne]

/-- Folding the cluster loop over derivative-free clusters reproduces the
input sequence and leaves the weights registry and lowering map empty. -/
theorem lowerAllFold_noDeriv (pick : Pick) :
    ∀ (cs : List Cluster) (a : Acc), a.buf = [] →
      (∀ c ∈ cs, c.exprs ≠ [] ∧ ∀ e ∈ c.exprs,
        hasDeriv e = false ∧ isEqn e = true ∧ lhsOf e ≠ rhsOf e) →
      ∃ p, cs.foldlM (lowerCluster pick) a =
        .ok ⟨a.processed ++ cs, [], { a.st with pool := p }⟩ := by
  intro cs
  induction cs with
  | nil =>
    intro a hbuf _
    refine ⟨a.st.pool, ?_⟩
    cases a with
    | mk pr bf st =>
      simp only at hbuf
      subst hbuf
      simp only [List.foldlM_nil, List.append_nil]
      rfl
  | cons c cs ih =>
    intro a hbuf h
    obtain ⟨hne, he⟩ := h c (List.mem_cons_self c cs)
    obtain ⟨p1, hp1⟩ := lowerCluster_noDeriv pick c a hne he
    obtain ⟨p, hp⟩ := ih ⟨a.processed ++ [c], [], { a.st with pool := p1 }⟩ rfl
      (fun c' hc' => h c' (List.mem_cons_of_mem _ hc'))
    refine ⟨p, ?_⟩
    simp only [List.foldlM_cons, hp1, okBind]
    simpa [List.append_assoc] using hp

/-- C2 (amended): for every input Cluster sequence containing no derivative
node, in which every cluster is non-empty and every equation is a proper
equation whose left side differs from its right side, the pass returns the
input sequence unchanged, for every fusion transform, pop policy, mode and
registry state — in particular neither the fusion transform nor CDE is
applied to it. -/
theorem lower_identity_on_no_deriv
    (fuseFn : List Cluster → List Cluster) (pick : Pick) (mode : Option String)
    (cs : List Cluster) (wc rc : Nat)
    (h : ∀ c ∈ cs, c.exprs ≠ [] ∧ ∀ e ∈ c.exprs,
      hasDeriv e = false ∧ isEqn e = true ∧ lhsOf e ≠ rhsOf e) :
    lowerIndexDerivatives fuseFn pick mode cs wc rc = .ok cs := by
  obtain ⟨p, hp⟩ := lowerAllFold_noDeriv pick cs ⟨[], [], ⟨[], [], wc, rc, []⟩⟩ rfl h
  unfold lowerIndexDerivatives lowerAll
  rw [hp]
  simp

/-- The degenerate derivative-free cluster holding `p = p`. -/
def cXX : Cluster := ⟨[.eqn none (.sym psym) (.sym psym)], ispX⟩

/-- C2 counterexample: the input sequence `[p = p]` contains no derivative
node, yet `lower_index_derivatives` returns the empty sequence, not the
identical sequence: the claim as stated is false. -/
theorem c2_counterexample :
    (∀ e ∈ cXX.exprs, hasDeriv e = false) ∧
    lowerIndexDerivatives id pickHead none [cXX] 0 0 = .ok [] ∧
    lowerIndexDerivatives id pickHead none [cXX] 0 0 ≠ .ok [cXX] := by
  refine ⟨?_, rfl, ?_⟩
  · intro e he
    simp only [cXX, List.mem_singleton] at he
    subst he
    rfl
  · intro hcontra
    rw [show lowerIndexDerivatives id pickHead none [cXX] 0 0 = .ok [] from rfl]
      at hcontra
    simp [cXX] at hcontra

/-- A well-formed derivative-free cluster `p = a`. -/
def cPA : Cluster := ⟨[.eqn none (.sym psym) (.sym asym)], ispX⟩

/-- Witness for `lower_identity_on_no_deriv` at the concrete input `[p = a]`. -/
theorem lower_identity_on_no_deriv_witness :
    lowerIndexDerivatives id pickHead none [cPA] 0 0 = .ok [cPA] :=
  lower_identity_on_no_deriv id pickHead none [cPA] 0 0 (by decide)

/-- With an empty elimination table and empty tables, the equation loop of
the callback keeps every equation unchanged. -/
theorem cdeExprFold_nil :
    ∀ (es : List Expr) (acc : List Expr),
      es.foldl (cdeExprStep []) (acc, [], []) = (acc ++ es, [], []) := by
  intro es
  induction es with
  | nil => intro acc; simp
  | cons e es ih =>
    intro acc
    have hstep : cdeExprStep [] (acc, [], []) e = (acc ++ [e], [], []) := by
      simp [cdeExprStep, elookup, mlookup, mergeSubs, uxreplace_nil]
    rw [List.foldl_cons, hstep, ih]
    simp

/-- With an empty elimination table and empty tables, the cluster loop of
the callback reproduces every cluster. -/
theorem cdeClusterFold_nil (seen : List Cluster) :
    ∀ (l : List Cluster) (proc : List Cluster),
      l.foldl (cdeClusterStep [] seen) (proc, [], []) = (proc ++ l, [], []) := by
  intro l
  induction l with
  | nil => intro proc; simp
  | cons c l ih =>
    intro proc
    have hstep : cdeClusterStep [] seen (proc, [], []) c = (proc ++ [c], [], []) := by
      by_cases hc : c ∈ seen
      · simp [cdeClusterStep, hc]
      · simp only [cdeClusterStep, hc, if_neg, ite_false, cdeExprFold_nil]
        rfl
    rw [List.foldl_cons, hstep, ih]
    simp

/-- `CDE.callback` with an empty elimination table and an empty global table
returns its input unchanged and does not grow the global table. -/
theorem cdeCallback_nil (cs : List Cluster) (st : CState) (h : st.subs0 = []) :
    (cdeCallback [] cs st).1 = cs ∧ (cdeCallback [] cs st).2.subs0 = [] := by
  unfold cdeCallback
  rw [h, cdeClusterFold_nil st.seen cs []]
  simp

/-- Regrouping by any key preserves the cluster sequence. -/
theorem groupRuns_join (key : Cluster → List Dim) :
    ∀ cs : List Cluster, ((groupRuns key cs).map Prod.snd).flatten = cs := by
  intro cs
  induction cs with
  | nil => rfl
  | cons c cs ih =>
    cases hg : groupRuns key cs with
    | nil =>
      rw [hg] at ih
      simp only [List.map_nil, List.flatten_nil] at ih
      subst ih
      simp [groupRuns]
    | cons kg rest =>
      rw [hg] at ih
      cases kg with
      | mk k g =>
        simp only [groupRuns, hg]
        by_cases hk : key c = k
        · simp only [hk, if_pos rfl]
          simp only [List.map_cons, List.flatten_cons] at ih ⊢
          simp [← ih]
        · rw [if_neg hk]
          simp only [List.map_cons, List.flatten_cons] at ih ⊢
          simp [← ih]

/-- The divide-and-recurse traversal with an empty elimination table is the
identity on the cluster sequence and never grows the global table. -/
theorem fdta_nil :
    ∀ (fuel level : Nat) (cs : List Cluster) (st : CState), st.subs0 = [] →
      (fdta [] fuel level cs st).1 = cs ∧ (fdta [] fuel level cs st).2.subs0 = [] := by
  intro fuel
  induction fuel with
  | zero =>
    intro level cs st h
    exact cdeCallback_nil cs st h
  | succ fuel ih =>
    intro level cs st h
    have hfold : ∀ (gs : List (List Dim × List Cluster)) (accl : List Cluster)
        (st' : CState), st'.subs0 = [] →
        (gs.foldl (fun acc kg =>
          if kg.1.length < level then (acc.1 ++ kg.2, acc.2)
          else
            (acc.1 ++ (fdta [] fuel (level + 1) kg.2 acc.2).1,
              (fdta [] fuel (level + 1) kg.2 acc.2).2)) (accl, st')).1
            = accl ++ (gs.map Prod.snd).flatten ∧
        (gs.foldl (fun acc kg =>
          if kg.1.length < level then (acc.1 ++ kg.2, acc.2)
          else
            (acc.1 ++ (fdta [] fuel (level + 1) kg.2 acc.2).1,
              (fdta [] fuel (level + 1) kg.2 acc.2).2)) (accl, st')).2.subs0 = [] := by
      intro gs
      induction gs with
      | nil => intro accl st' h'; simp [h']
      | cons kg gs ihg =>
        intro accl st' h'
        by_cases hlen : kg.1.length < level
        · have := ihg (accl ++ kg.2) st' h'
          simp only [List.foldl_cons, if_pos hlen]
          simpa [List.append_assoc] using this
        · obtain ⟨hq1, hq2⟩ := ih (level + 1) kg.2 st' h'
          have := ihg (accl ++ (fdta [] fuel (level + 1) kg.2 st').1)
            (fdta [] fuel (level + 1) kg.2 st').2 hq2
          simp only [List.foldl_cons, if_neg hlen]
          simpa [List.append_assoc, hq1] using this
    obtain ⟨h1, h2⟩ := hfold (groupRuns (ckey level) cs) [] st h
    rw [groupRuns_join] at h1
    simp only [List.nil_append] at h1
    simp only [fdta]
    rw [h1]
    exact cdeCallback_nil cs _ h2

/-- C3 (amended): when every right-hand side recorded in the lowering map
has multiplicity 1, running CDE over any Cluster sequence leaves the
sequence unchanged.  (In general an equation with a multiplicity-1
right-hand side can still be dropped when its left side coincides with the
left side of an earlier equation eliminated as a duplicate; see the
counterexample.) -/
theorem cde_noop_on_mult_one (m : List (Expr × List SSymbol))
    (cs : List Cluster) (h : ∀ kv ∈ m, kv.2.length = 1) :
    cdeProcess m cs = cs := by
  have hf : cdeFilter m = [] := by
    unfold cdeFilter
    rw [List.filter_eq_nil_iff]
    intro kv hkv
    simp [h kv hkv]
  unfold cdeProcess
  rw [hf]
  exact (fdta_nil _ 1 cs ⟨[], []⟩ rfl).1

/-- Witness fixture: a one-entry lowering map of multiplicity 1. -/
def mOne : List (Expr × List SSymbol) := [(.sym asym, [psym])]

/-- Witness for `cde_noop_on_mult_one` at a concrete map and sequence. -/
theorem cde_noop_on_mult_one_witness : cdeProcess mOne [cPA] = [cPA] :=
  cde_noop_on_mult_one mOne [cPA] (by decide)

/-- A deduplicated weights function as it appears after lowering. -/
def wF : WFunction := ⟨"w0", [1, -2, 1], .f32⟩

/-- A lowered accumulation right-hand side recorded twice. -/
def rhsX : Expr := .mul (.sym asym) (.windex wF [i0])

/-- A lowered accumulation right-hand side recorded once. -/
def rhsY : Expr := .mul (.sym bsym) (.windex wF [i0])

/-- `Inc(p, X)`: the first accumulation of the duplicated right-hand side. -/
def eIncPX : Expr := .eqn (some .inc) (.sym psym) rhsX

/-- `Inc(q, X)`: the second accumulation of the duplicated right-hand side. -/
def eIncQX : Expr := .eqn (some .inc) (.sym qsym) rhsX

/-- `Inc(q, Y)`: an accumulation whose right-hand side has multiplicity 1. -/
def eIncQY : Expr := .eqn (some .inc) (.sym qsym) rhsY

/-- The lowering map recording `X` with two accumulators and `Y` with one. -/
def cexMapper : List (Expr × List SSymbol) := [(rhsX, [psym, qsym]), (rhsY, [qsym])]

/-- The cluster sequence fed to CDE in the counterexample. -/
def cexCluster : Cluster := ⟨[eIncPX, eIncQX, eIncQY], ispX⟩

/-- Translation preserves the dimension of every interval. -/
theorem translateIv_dim (d : Dim) (v : Int) (iv : Interval) :
    (translateIv d v iv).dim = iv.dim := by
  unfold translateIv
  split <;> rfl

/-- The hull step of `union` preserves the dimension of every interval. -/
theorem hullWith_dim (b : ISpace) (iv : Interval) :
    (hullWith b iv).dim = iv.dim := by
  unfold hullWith
  cases b.find? iv.dim <;> rfl

/-- Interval lookup commutes with translation. -/
theorem find?_translate (i : ISpace) (d e : Dim) (v : Int) :
    (i.translate d v).find? e = (i.find? e).map (translateIv d v) := by
  unfold ISpace.translate ISpace.find?
  rw [List.find?_map]
  have hp : ((fun iv : Interval => decide (iv.dim = e)) ∘ translateIv d v)
      = fun iv : Interval => decide (iv.dim = e) := by
    funext iv
    simp [Function.comp, translateIv_dim]
  rw [hp]

/-- Interval lookup after a translation of a different dimension. -/
theorem find?_translate_ne (i : ISpace) (d e : Dim) (v : Int) (h : e ≠ d) :
    (i.translate d v).find? e = i.find? e := by
  rw [find?_translate]
  cases hf : i.find? e with
  | none => rfl
  | some iv =>
    have hd := List.find?_some hf
    simp only [decide_eq_true_eq] at hd
    simp only [Option.map_some', translateIv]
    rw [if_neg (by rw [hd]; exact h)]

/-- Interval lookup after a translation of the same dimension. -/
theorem find?_translate_self (i : ISpace) (d : Dim) (v : Int) :
    (i.translate d v).find? d =
      (i.find? d).map
        (fun iv => ⟨iv.dim, iv.lower + v, iv.upper + v⟩) := by
  rw [find?_translate]
  cases hf : i.find? d with
  | none => rfl
  | some iv =>
    have hd := List.find?_some hf
    simp only [decide_eq_true_eq] at hd
    simp only [Option.map_some', translateIv]
    rw [if_pos hd]

/-- Folding translations over dimensions not equal to `d` does not change
the interval of `d`. -/
theorem foldl_translate_find_notmem :
    ∀ (dims : List StencilDim) (u : ISpace) (d : Dim),
      (∀ d' ∈ dims, Dim.stencil d' ≠ d) →
      (dims.foldl (fun i d' => i.translate (Dim.stencil d') (-d'.lo)) u).find? d
        = u.find? d := by
  intro dims
  induction dims with
  | nil => intro u d _; rfl
  | cons d0 dims ih =>
    intro u d h
    rw [List.foldl_cons]
    rw [ih (u.translate (Dim.stencil d0) (-d0.lo)) d
      (fun d' hd' => h d' (List.mem_cons_of_mem _ hd'))]
    exact find?_translate_ne u (Dim.stencil d0) d (-d0.lo)
      (fun he => h d0 (List.mem_cons_self d0 dims) he.symm)

/-- The net effect of the 0-renormalization loop on the interval of one of
the (pairwise distinct) new dimensions. -/
theorem foldl_translate_find :
    ∀ (dims : List StencilDim) (u : ISpace), dims.Nodup →
      ∀ d ∈ dims,
        (dims.foldl (fun i d' => i.translate (Dim.stencil d') (-d'.lo)) u).find?
            (Dim.stencil d)
          = (u.find? (Dim.stencil d)).map
              (fun iv => ⟨iv.dim, iv.lower + (-d.lo), iv.upper + (-d.lo)⟩) := by
  intro dims
  induction dims with
  | nil => intro u _ d hd; cases hd
  | cons d0 dims ih =>
    intro u hnd d hd
    rw [List.nodup_cons] at hnd
    rw [List.foldl_cons]
    rcases List.mem_cons.mp hd with heq | hmem
    · subst heq
      rw [foldl_translate_find_notmem dims (u.translate (Dim.stencil d) (-d.lo))
        (Dim.stencil d)
        (fun d' hd' he => hnd.1 (by
          have : d' = d := by
            injection he
          rw [← this]; exact hd'))]
      exact find?_translate_self u (Dim.stencil d) (-d.lo)
    · rw [ih (u.translate (Dim.stencil d0) (-d0.lo)) hnd.2 d hmem]
      rw [find?_translate_ne u (Dim.stencil d0) (Dim.stencil d) (-d0.lo)
        (fun he => hnd.1 (by
          have : d0 = d := by injection he.symm
          rw [this]; exact hmem))]

/-- In a space that does not contain a dimension, interval lookup fails. -/
theorem find?_not_hasDim (i : ISpace) (e : Dim) (h : i.hasDim e = false) :
    i.intervals.find? (fun iv => iv.dim = e) = none := by
  rw [List.find?_eq_none]
  intro iv hiv
  simp only [decide_eq_true_eq]
  intro hdim
  rw [ISpace.hasDim, ISpace.itdims] at h
  have hm : e ∈ i.intervals.map Interval.dim :=
    List.mem_map.mpr ⟨iv, hiv, hdim⟩
  rw [← List.elem_iff (a := e)] at hm
  have h2 : List.elem e (List.map Interval.dim i.intervals) = false := h
  rw [h2] at hm
  simp at hm

/-- The first element equal to `d` found in a list containing `d` is `d`. -/
theorem find?_eq_self {dims : List StencilDim} {d : StencilDim} (hd : d ∈ dims) :
    dims.find? (fun x => x = d) = some d := by
  induction dims with
  | nil => cases hd
  | cons d0 dims ih =>
    by_cases h0 : d0 = d
    · subst h0
      simp [List.find?]
    · rcases List.mem_cons.mp hd with heq | hmem
      · exact absurd heq.symm h0
      · simp only [List.find?]
        rw [decide_eq_false h0]
        exact ih hmem

/-- The interval of each new stencil dimension in the merged,
0-renormalized accumulation space: offsets `-d.lo` on both sides, so the
iteration range starts at 0 whatever the symbolic lower bound was. -/
theorem accSpace_find (c : Cluster) (dims : List StencilDim) (hnd : dims.Nodup)
    (hmem : ∀ d ∈ dims, c.ispace.hasDim (Dim.stencil d) = false) :
    ∀ d ∈ dims, (accSpace c dims).find? (Dim.stencil d) =
      some ⟨Dim.stencil d, 0 + (-d.lo), 0 + (-d.lo)⟩ := by
  intro d hd
  unfold accSpace
  rw [foldl_translate_find dims _ hnd d hd]
  suffices hu :
      (ISpace.union c.ispace
        ⟨dims.map (fun d' => Interval.mk (Dim.stencil d') 0 0),
         dims.map (fun d' => (Dim.stencil d',
           if d'.backward then Direction.backward else Direction.forward)), []⟩
        [c.ispace.itdims ++ dims.map Dim.stencil]).find? (Dim.stencil d)
      = some ⟨Dim.stencil d, 0, 0⟩ by
    rw [hu]
    rfl
  unfold ISpace.union ISpace.find?
  rw [List.find?_append]
  have hleft : (c.ispace.intervals.map (hullWith
      ⟨dims.map (fun d' => Interval.mk (Dim.stencil d') 0 0),
       dims.map (fun d' => (Dim.stencil d',
         if d'.backward then Direction.backward else Direction.forward)),
       []⟩)).find? (fun iv => iv.dim = Dim.stencil d) = none := by
    rw [List.find?_map]
    have hp : ((fun iv : Interval => decide (iv.dim = Dim.stencil d)) ∘ hullWith
        ⟨dims.map (fun d' => Interval.mk (Dim.stencil d') 0 0),
         dims.map (fun d' => (Dim.stencil d',
           if d'.backward then Direction.backward else Direction.forward)),
         []⟩) = fun iv : Interval => decide (iv.dim = Dim.stencil d) := by
      funext iv
      simp [Function.comp, hullWith_dim]
    rw [hp, find?_not_hasDim c.ispace (Dim.stencil d) (hmem d hd)]
    rfl
  rw [hleft]
  simp only [Option.none_or]
  have hfilter : (dims.map (fun d' => Interval.mk (Dim.stencil d') 0 0)).filter
      (fun jv => !(c.ispace.itdims.contains jv.dim))
      = dims.map (fun d' => Interval.mk (Dim.stencil d') 0 0) := by
    rw [List.filter_eq_self]
    intro iv hiv
    rcases List.mem_map.mp hiv with ⟨d', hd', hmk⟩
    rw [← hmk]
    simp only [Bool.not_eq_true']
    exact hmem d' hd'
  rw [hfilter, List.find?_map]
  have hp2 : (fun iv : Interval => decide (iv.dim = Dim.stencil d)) ∘
      (fun d' => Interval.mk (Dim.stencil d') 0 0) = fun d' => decide (d' = d) := by
    funext d'
    simp [Function.comp]
  rw [hp2, find?_eq_self hd]
  rfl

/-- Weight replacement does not change the retrieved dimensions. -/
theorem collectDims_replaceW (w0 w : WFunction) :
    ∀ e : Expr, collectDims (replaceW w0 w e) = collectDims e := by
  intro e
  induction e with
  | sym s => rfl
  | num n => rfl
  | dimref d => rfl
  | indexed a ix ih => simp [replaceW, collectDims, ih]
  | windex u ds => rfl
  | add a b iha ihb => simp [replaceW, collectDims, iha, ihb]
  | mul a b iha ihb => simp [replaceW, collectDims, iha, ihb]
  | pair a b iha ihb => simp [replaceW, collectDims, iha, ihb]
  | eqn op l r ihl ihr => simp [replaceW, collectDims, ihl, ihr]
  | deriv b u ds dt ih => simp [replaceW, collectDims, ih]

/-- Weight replacement does not change the new stencil dimensions. -/
theorem newDims_replaceW (w0 w : WFunction) (e : Expr) (c : Cluster) :
    newDims (replaceW w0 w e) c = newDims e c := by
  unfold newDims stencilDimsOf
  rw [collectDims_replaceW]

/-- First-occurrence deduplication yields pairwise distinct elements. -/
theorem filterOrdered_nodup : ∀ l : List StencilDim, (filterOrdered l).Nodup := by
  intro l
  induction l with
  | nil => exact List.nodup_nil
  | cons d ds ih =>
    rw [filterOrdered, List.nodup_cons]
    constructor
    · intro hmem
      have := List.of_mem_filter hmem
      simp at this
    · exact List.Nodup.filter _ ih

/-- The new stencil dimensions of a node are pairwise distinct. -/
theorem newDims_nodup (e : Expr) (c : Cluster) : (newDims e c).Nodup := by
  unfold newDims stencilDimsOf
  exact List.Nodup.filter _ (List.nodup_reverse.mpr (filterOrdered_nodup _))

/-- Every new stencil dimension is absent from the cluster's space. -/
theorem newDims_not_mem (e : Expr) (c : Cluster) :
    ∀ d ∈ newDims e c, c.ispace.hasDim (Dim.stencil d) = false := by
  intro d hd
  unfold newDims at hd
  have := List.of_mem_filter hd
  simpa using this

/-- A lookup that succeeds in the accumulation space shows its interval
list is non-empty. -/
theorem accSpace_intervals_ne (c : Cluster) (dims : List StencilDim)
    (hne : dims ≠ []) (hnd : dims.Nodup)
    (hmem : ∀ d ∈ dims, c.ispace.hasDim (Dim.stencil d) = false) :
    (accSpace c dims).intervals ≠ [] := by
  obtain ⟨dl, hdl⟩ : ∃ dl, dims.getLast? = some dl := by
    cases hgl : dims.getLast? with
    | none => exact absurd (List.getLast?_eq_none_iff.mp hgl) hne
    | some dl => exact ⟨dl, rfl⟩
  have hfind := accSpace_find c dims hnd hmem dl (List.mem_of_mem_getLast? hdl)
  intro hemp
  rw [ISpace.find?, hemp] at hfind
  cases hfind

/-- With at least one new dimension, the init-space projection succeeds and
projects out precisely the innermost (last) new stencil dimension. -/
theorem projectNotLast_ok (c : Cluster) (dims : List StencilDim)
    (hne : dims ≠ []) (hnd : dims.Nodup)
    (hmem : ∀ d ∈ dims, c.ispace.hasDim (Dim.stencil d) = false) :
    ∃ dl, dims.getLast? = some dl ∧
      projectNotLast (accSpace c dims) dims =
        .ok ((accSpace c dims).project (fun d => d ≠ Dim.stencil dl)) := by
  obtain ⟨dl, hdl⟩ : ∃ dl, dims.getLast? = some dl := by
    cases hgl : dims.getLast? with
    | none => exact absurd (List.getLast?_eq_none_iff.mp hgl) hne
    | some dl => exact ⟨dl, rfl⟩
  refine ⟨dl, hdl, ?_⟩
  unfold projectNotLast
  cases hivs : (accSpace c dims).intervals with
  | nil => exact absurd hivs (accSpace_intervals_ne c dims hne hnd hmem)
  | cons iv rest =>
    rw [hdl]

/-- Weight resolution does not touch the reuse pool. -/
theorem resolveW_pool (w0 : WFunction) (dt : Dtype) (st : St) :
    (resolveW w0 dt st).2.pool = st.pool := by
  simp only [resolveW]
  cases wlookup w0.coeffs ({ st with wctr := st.wctr + 1 } : St).weights <;> rfl

/-- Weight resolution does not touch the temporaries counter. -/
theorem resolveW_rctr (w0 : WFunction) (dt : Dtype) (st : St) :
    (resolveW w0 dt st).2.rctr = st.rctr := by
  simp only [resolveW]
  cases wlookup w0.coeffs ({ st with wctr := st.wctr + 1 } : St).weights <;> rfl

/-- Decomposition of one successful derivative lowering: the result
expression is the accumulator symbol, whose dtype is that of the resolved
weight; the emitted clusters are the init Cluster (in front of the inner
clusters), then the inner clusters, then the accumulation Cluster, whose
space is the merged 0-renormalized space and whose expression is the Inc of
the shifted base times the resolved indexed weights. -/
theorem lowerDeriv_shape (pick : Pick) (b1 : Expr) (w0 : WFunction)
    (ds : List StencilDim) (dt : Dtype) (c : Cluster) (processed : List Cluster)
    (st : St) (r : Expr × List Cluster × St)
    (hok : lowerDeriv pick b1 w0 ds dt c processed st = .ok r) :
    ∃ (s : SSymbol) (isp1 : ISpace),
      r.1 = Expr.sym s ∧
      s.dtype = (resolveW w0 dt st).1.dtype ∧
      projectNotLast (accSpace c (newDims (Expr.deriv b1 w0 ds dt) c))
        (newDims (Expr.deriv b1 w0 ds dt) c) = .ok isp1 ∧
      r.2.1 =
        ⟨[Expr.eqn none (.sym s) (.num 0)], isp1⟩ :: processed ++
        [⟨[Expr.eqn (some .inc) (.sym s)
            (Expr.mul
              (shiftBase (replaceW w0 (resolveW w0 dt st).1 b1)
                (newDims (Expr.deriv b1 w0 ds dt) c))
              (Expr.windex (resolveW w0 dt st).1 ds))],
          accSpace c (newDims (Expr.deriv b1 w0 ds dt) c)⟩] ∧
      ((∃ rest, pick st.pool = some (s, rest) ∧
          r.2.2.pool = rest ∧ r.2.2.rctr = st.rctr) ∨
       (pick st.pool = none ∧
          s.name = rname st.rctr ∧ r.2.2.pool = st.pool ∧
          r.2.2.rctr = st.rctr + 1)) := by
  simp only [lowerDeriv] at hok
  rw [newDims_replaceW] at hok
  have hbase : derivBase (replaceW w0 (resolveW w0 dt st).1
      (Expr.deriv b1 w0 ds dt)) = replaceW w0 (resolveW w0 dt st).1 b1 := rfl
  have hw : derivWeights (replaceW w0 (resolveW w0 dt st).1
      (Expr.deriv b1 w0 ds dt)) = Expr.windex (resolveW w0 dt st).1 ds := by
    simp [replaceW, derivWeights]
  rw [hbase, hw] at hok
  rcases hpick : pick (resolveW w0 dt st).2.pool with _ | ⟨s0, rest⟩
  · rw [hpick] at hok
    simp only at hok
    cases hproj : projectNotLast
        (accSpace c (newDims (Expr.deriv b1 w0 ds dt) c))
        (newDims (Expr.deriv b1 w0 ds dt) c) with
    | error err => rw [hproj] at hok; cases hok
    | ok isp1 =>
      rw [hproj] at hok
      simp only at hok
      injection hok with hok2
      subst hok2
      refine ⟨⟨rname (resolveW w0 dt st).2.rctr, (resolveW w0 dt st).1.dtype⟩,
        isp1, rfl, rfl, rfl, rfl, Or.inr ⟨?_, ?_, ?_, ?_⟩⟩
      · rw [← resolveW_pool w0 dt st]
        exact hpick
      · show rname (resolveW w0 dt st).2.rctr = rname st.rctr
        rw [resolveW_rctr]
      · exact resolveW_pool w0 dt st
      · show (resolveW w0 dt st).2.rctr + 1 = st.rctr + 1
        rw [resolveW_rctr]
  · rw [hpick] at hok
    simp only at hok
    by_cases hdt : s0.dtype = (resolveW w0 dt st).1.dtype
    · rw [if_pos hdt] at hok
      simp only at hok
      cases hproj : projectNotLast
          (accSpace c (newDims (Expr.deriv b1 w0 ds dt) c))
          (newDims (Expr.deriv b1 w0 ds dt) c) with
      | error err => rw [hproj] at hok; cases hok
      | ok isp1 =>
        rw [hproj] at hok
        simp only at hok
        injection hok with hok2
        subst hok2
        refine ⟨s0, isp1, rfl, hdt, rfl, rfl, Or.inl ⟨rest, ?_, rfl, ?_⟩⟩
        · rw [← resolveW_pool w0 dt st]
          exact hpick
        · show (resolveW w0 dt st).2.rctr = st.rctr
          rw [resolveW_rctr]
    · rw [if_neg hdt] at hok
      cases hok

/-- C1 (amended): for every derivative node lowered by `_core` that
introduces at least one new stencil dimension, the emitted cluster list is
the init Cluster, then the clusters produced for nested derivatives inside
the base, then the accumulation Cluster: the init Cluster assigns 0 to the
same accumulator symbol the accumulation Cluster increments, and its
iteration space is the accumulation space with the innermost (last) new
stencil dimension projected out.  The init Cluster immediately precedes the
accumulation Cluster exactly when the base produced no nested clusters; for
a nested derivative the emitted order is outer init, inner init, inner
accumulate, outer accumulate (see the counterexample). -/
theorem lowerDeriv_init_before_acc (pick : Pick) (b1 : Expr) (w0 : WFunction)
    (ds : List StencilDim) (dt : Dtype) (c : Cluster) (processed : List Cluster)
    (st : St) (r : Expr × List Cluster × St)
    (hok : lowerDeriv pick b1 w0 ds dt c processed st = .ok r)
    (hne : newDims (Expr.deriv b1 w0 ds dt) c ≠ []) :
    ∃ (s : SSymbol) (dl : StencilDim) (rhs : Expr),
      (newDims (Expr.deriv b1 w0 ds dt) c).getLast? = some dl ∧
      r.2.1 =
        ⟨[Expr.eqn none (.sym s) (.num 0)],
          (accSpace c (newDims (Expr.deriv b1 w0 ds dt) c)).project
            (fun d => d ≠ Dim.stencil dl)⟩ :: processed ++
        [⟨[Expr.eqn (some .inc) (.sym s) rhs],
          accSpace c (newDims (Expr.deriv b1 w0 ds dt) c)⟩] ∧
      (processed = [] →
        r.2.1 =
          [⟨[Expr.eqn none (.sym s) (.num 0)],
            (accSpace c (newDims (Expr.deriv b1 w0 ds dt) c)).project
              (fun d => d ≠ Dim.stencil dl)⟩,
           ⟨[Expr.eqn (some .inc) (.sym s) rhs],
            accSpace c (newDims (Expr.deriv b1 w0 ds dt) c)⟩]) := by
  obtain ⟨s, isp1, _, _, hproj, hv, _⟩ :=
    lowerDeriv_shape pick b1 w0 ds dt c processed st r hok
  obtain ⟨dl, hdl, hproj2⟩ := projectNotLast_ok c
    (newDims (Expr.deriv b1 w0 ds dt) c) hne (newDims_nodup _ _) (newDims_not_mem _ _)
  rw [hproj2] at hproj
  injection hproj with hisp
  refine ⟨s, dl,
    Expr.mul (shiftBase (replaceW w0 (resolveW w0 dt st).1 b1)
      (newDims (Expr.deriv b1 w0 ds dt) c)) (Expr.windex (resolveW w0 dt st).1 ds),
    hdl, ?_, ?_⟩
  · rw [hv, hisp]
  · intro hp
    rw [hv, hisp, hp]
    rfl

/-- The fresh accumulator symbol of the outer derivative. -/
def r0sym : SSymbol := ⟨"r0", .f32⟩

/-- The deduplicated concrete weights function minted by the run. -/
def w0res : WFunction := ⟨"w0", [1, -2, 1], .f32⟩

/-- `a[x + (i0 + (-1))]`: the shifted base of the inner accumulation. -/
def shiftedBaseA : Expr :=
  .indexed "a" (.add (.dimref xdim) (.add (.dimref (.stencil i0)) (.num (-1))))

/-- The inner accumulation (into the reused destination `u`). -/
def innerIncE : Expr :=
  .eqn (some .inc) (.sym usym) (.mul shiftedBaseA (.windex w0res [i0]))

/-- The outer accumulation (into the fresh accumulator `r0`). -/
def outerIncE : Expr :=
  .eqn (some .inc) (.sym r0sym) (.mul (.sym usym) (.windex w0res [i1]))

/-- C1 counterexample: lowering the single equation `u = D(D(a))` emits five
clusters whose equations, in order, are `r0 = 0` (outer init), `u = 0`
(inner init), `Inc(u, ...)` (inner accumulate), `Inc(r0, ...)` (outer
accumulate) and the kept equation `u = r0` — not the claimed four clusters
ordered inner init, inner accumulate, outer init, outer accumulate; in
particular the outer accumulation Cluster is immediately preceded by the
inner accumulation, not by its own init Cluster, which sits at the front. -/
theorem c1_counterexample :
    (Except.map (fun a => a.processed.map Cluster.exprs)
        (lowerAll pickHead [cIn] 0 0)) =
      .ok [[.eqn none (.sym r0sym) (.num 0)],
           [.eqn none (.sym usym) (.num 0)],
           [innerIncE],
           [outerIncE],
           [.eqn none (.sym usym) (.sym r0sym)]] ∧
    [innerIncE] ≠ [Expr.eqn none (.sym r0sym) (.num 0)] ∧
    [Expr.eqn none (.sym usym) (.num 0)] ≠ [Expr.eqn none (.sym r0sym) (.num 0)] := by
  refine ⟨rfl, by decide, by decide⟩

/-- The init space of the single-derivative witness run. -/
def ispXproj : ISpace := ⟨[⟨xdim, 0, 0⟩], [(xdim, .forward)], [[xdim]]⟩

/-- The accumulation space of the single-derivative witness run. -/
def ispXI0 : ISpace :=
  ⟨[⟨xdim, 0, 0⟩, ⟨.stencil i0, 1, 1⟩],
   [(xdim, .forward), (.stencil i0, .forward)], [[xdim, .stencil i0]]⟩

/-- The accumulation equation of the single-derivative witness run. -/
def singleIncE : Expr :=
  .eqn (some .inc) (.sym r0sym) (.mul shiftedBaseA (.windex w0res [i0]))

/-- The full result of the single-derivative witness run. -/
def c1wR : Expr × List Cluster × St :=
  (.sym r0sym,
   [⟨[.eqn none (.sym r0sym) (.num 0)], ispXproj⟩, ⟨[singleIncE], ispXI0⟩],
   ⟨[([1, -2, 1], w0res)],
    [(.mul shiftedBaseA (.windex w0res [i0]), [r0sym])], 1, 1, []⟩)

/-- Witness for `lowerDeriv_init_before_acc` at the concrete derivative
`D(a)` lowered inside an empty cluster over `x`. -/
theorem lowerDeriv_init_before_acc_witness :
    ∃ (s : SSymbol) (dl : StencilDim) (rhs : Expr),
      (newDims (Expr.deriv baseIn w0in [i0] .f32) ⟨[], ispX⟩).getLast? = some dl ∧
      c1wR.2.1 =
        ⟨[Expr.eqn none (.sym s) (.num 0)],
          (accSpace ⟨[], ispX⟩
            (newDims (Expr.deriv baseIn w0in [i0] .f32) ⟨[], ispX⟩)).project
            (fun d => d ≠ Dim.stencil dl)⟩ :: [] ++
        [⟨[Expr.eqn (some .inc) (.sym s) rhs],
          accSpace ⟨[], ispX⟩
            (newDims (Expr.deriv baseIn w0in [i0] .f32) ⟨[], ispX⟩)⟩] ∧
      (([] : List Cluster) = [] →
        c1wR.2.1 =
          [⟨[Expr.eqn none (.sym s) (.num 0)],
            (accSpace ⟨[], ispX⟩
              (newDims (Expr.deriv baseIn w0in [i0] .f32) ⟨[], ispX⟩)).project
              (fun d => d ≠ Dim.stencil dl)⟩,
           ⟨[Expr.eqn (some .inc) (.sym s) rhs],
            accSpace ⟨[], ispX⟩
              (newDims (Expr.deriv baseIn w0in [i0] .f32) ⟨[], ispX⟩)⟩]) :=
  lowerDeriv_init_before_acc pickHead baseIn w0in [i0] .f32 ⟨[], ispX⟩ []
    ⟨[], [], 0, 0, []⟩ c1wR rfl (by decide)

/-- In a projection that keeps dimension `e`, interval lookup of `e` is
unchanged. -/
theorem find?_filter_keep :
    ∀ (l : List Interval) (p : Dim → Bool) (e : Dim), p e = true →
      (l.filter (fun iv => p iv.dim)).find? (fun iv => iv.dim = e) =
        l.find? (fun iv => iv.dim = e) := by
  intro l p e hpe
  induction l with
  | nil => rfl
  | cons iv l ih =>
    by_cases hdim : iv.dim = e
    · rw [List.filter_cons, if_pos (by rw [hdim]; exact hpe)]
      rw [List.find?_cons_of_pos _ (by simp [hdim]),
        List.find?_cons_of_pos _ (by simp [hdim])]
    · by_cases hp : p iv.dim
      · rw [List.filter_cons, if_pos hp]
        rw [List.find?_cons_of_neg _ (by simp [hdim]),
          List.find?_cons_of_neg _ (by simp [hdim])]
        exact ih
      · rw [List.filter_cons, if_neg hp]
        rw [List.find?_cons_of_neg _ (by simp [hdim])]
        exact ih

/-- Interval lookup of a kept dimension commutes with projection. -/
theorem find?_project (i : ISpace) (p : Dim → Bool) (e : Dim) (hpe : p e = true) :
    (i.project p).find? e = i.find? e := by
  unfold ISpace.project ISpace.find?
  exact find?_filter_keep i.intervals p e hpe

/-- The symbolic lower bound of a dimension (`d._min`; 0 for plain
dimensions, whose intervals are left untouched by the pass). -/
def dimLo : Dim → Int
  | .plain _ => 0
  | .stencil sd => sd.lo

/-- The concrete start of an interval: the dimension's own lower bound plus
the interval's lower offset. -/
def startOf (iv : Interval) : Int := dimLo iv.dim + iv.lower

/-- Whether an expression contains no indexed weights access (true of every
derivative base). -/
def noW : Expr → Bool
  | .sym _ => true
  | .num _ => true
  | .dimref _ => true
  | .indexed _ ix => noW ix
  | .windex _ _ => false
  | .add a b => noW a && noW b
  | .mul a b => noW a && noW b
  | .pair a b => noW a && noW b
  | .eqn _ l r => noW l && noW r
  | .deriv b _ _ _ => noW b

/-- Valuation-based evaluation of expressions: dimensions read the loop
counter valuation `rho`, symbols read `sig`, array accesses read `arr` at
the evaluated index, weights accesses read `wv` at the counters of their
stencil dimensions. -/
def evalE (rho : Dim → Int) (sig : String → Int) (arr : String → Int → Int)
    (wv : WFunction → List Int → Int) : Expr → Int
  | .sym s => sig s.name
  | .num n => n
  | .dimref d => rho d
  | .indexed a ix => arr a (evalE rho sig arr wv ix)
  | .windex w dsx => wv w (dsx.map (fun d => rho (Dim.stencil d)))
  | .add a b => evalE rho sig arr wv a + evalE rho sig arr wv b
  | .mul a b => evalE rho sig arr wv a * evalE rho sig arr wv b
  | .pair a b => evalE rho sig arr wv a + evalE rho sig arr wv b
  | .eqn _ _ r => evalE rho sig arr wv r
  | .deriv b _ _ _ => evalE rho sig arr wv b

/-- The valuation obtained by shifting every dimension of `dims` by its own
lower bound: the loop-counter change that the 0-renormalization performs. -/
def shiftEnv (rho : Dim → Int) (dims : List StencilDim) : Dim → Int :=
  fun d' => match asStencil d' with
  | some sd => if sd ∈ dims then rho d' + sd.lo else rho d'
  | none => rho d'

/-- Substitution of a dimension commutes with evaluation on
weights-access-free expressions. -/
theorem evalE_substDim (d : StencilDim) (rep : Expr) (rho : Dim → Int)
    (sig : String → Int) (arr : String → Int → Int)
    (wv : WFunction → List Int → Int) :
    ∀ e, noW e = true →
      evalE rho sig arr wv (substDim d rep e) =
        evalE (fun d' => if d' = Dim.stencil d then evalE rho sig arr wv rep
          else rho d') sig arr wv e := by
  intro e
  induction e with
  | sym s => intro _; rfl
  | num n => intro _; rfl
  | dimref d' =>
    intro _
    by_cases hd : d' = Dim.stencil d
    · simp [substDim, evalE, hd]
    · simp [substDim, evalE, hd]
  | indexed a ix ih =>
    intro h
    rw [noW] at h
    simp [substDim, evalE, ih h]
  | windex w dsx => intro h; cases h
  | add a b iha ihb =>
    intro h
    rw [noW, Bool.and_eq_true] at h
    simp [substDim, evalE, iha h.1, ihb h.2]
  | mul a b iha ihb =>
    intro h
    rw [noW, Bool.and_eq_true] at h
    simp [substDim, evalE, iha h.1, ihb h.2]
  | pair a b iha ihb =>
    intro h
    rw [noW, Bool.and_eq_true] at h
    simp [substDim, evalE, iha h.1, ihb h.2]
  | eqn op l r ihl ihr =>
    intro h
    rw [noW, Bool.and_eq_true] at h
    simp [substDim, evalE, ihr h.2]
  | deriv b w dsx dt ih =>
    intro h
    rw [noW] at h
    simp [substDim, evalE, ih h]

/-- Substitution preserves freedom from weights accesses when the
replacement is free of them. -/
theorem noW_substDim (d : StencilDim) (rep : Expr) (hrep : noW rep = true) :
    ∀ e, noW e = true → noW (substDim d rep e) = true := by
  intro e
  induction e with
  | sym s => intro _; rfl
  | num n => intro _; rfl
  | dimref d' =>
    intro _
    by_cases hd : d' = Dim.stencil d
    · simp [substDim, hd, hrep]
    · simp [substDim, hd, noW]
  | indexed a ix ih =>
    intro h
    rw [noW] at h
    simp only [substDim, noW]
    exact ih h
  | windex w dsx => intro h; cases h
  | add a b iha ihb =>
    intro h
    rw [noW, Bool.and_eq_true] at h
    simp only [substDim, noW, Bool.and_eq_true]
    exact ⟨iha h.1, ihb h.2⟩
  | mul a b iha ihb =>
    intro h
    rw [noW, Bool.and_eq_true] at h
    simp only [substDim, noW, Bool.and_eq_true]
    exact ⟨iha h.1, ihb h.2⟩
  | pair a b iha ihb =>
    intro h
    rw [noW, Bool.and_eq_true] at h
    simp only [substDim, noW, Bool.and_eq_true]
    exact ⟨iha h.1, ihb h.2⟩
  | eqn op l r ihl ihr =>
    intro h
    rw [noW, Bool.and_eq_true] at h
    simp only [substDim, noW, Bool.and_eq_true]
    exact ⟨ihl h.1, ihr h.2⟩
  | deriv b w dsx dt ih =>
    intro h
    rw [noW] at h
    simp only [substDim, noW]
    exact ih h

/-- Evaluation depends on the valuation extensionally. -/
theorem evalE_congr (rho rho' : Dim → Int) (sig : String → Int)
    (arr : String → Int → Int) (wv : WFunction → List Int → Int)
    (h : ∀ d, rho d = rho' d) (e : Expr) :
    evalE rho sig arr wv e = evalE rho' sig arr wv e := by
  rw [show rho = rho' from funext h]

/-- Addressing is unchanged by the 0-renormalization: evaluating the
shifted base at the 0-based counters equals evaluating the original base
with every new dimension's counter shifted by its own lower bound. -/
theorem evalE_shiftBase :
    ∀ (dims : List StencilDim), dims.Nodup →
      ∀ (b : Expr), noW b = true →
        ∀ (rho : Dim → Int) (sig : String → Int) (arr : String → Int → Int)
          (wv : WFunction → List Int → Int),
          evalE rho sig arr wv (shiftBase b dims) =
            evalE (shiftEnv rho dims) sig arr wv b := by
  intro dims
  induction dims with
  | nil =>
    intro _ b hb rho sig arr wv
    unfold shiftBase
    rw [List.foldl_nil]
    exact evalE_congr rho (shiftEnv rho []) sig arr wv (by
      intro d'
      simp only [shiftEnv]
      cases asStencil d' <;> simp) b
  | cons d rest ih =>
    intro hnd b hb rho sig arr wv
    rw [List.nodup_cons] at hnd
    have hstep : shiftBase b (d :: rest) =
        shiftBase (substDim d (Expr.add (.dimref (.stencil d)) (.num d.lo)) b) rest := by
      unfold shiftBase
      rw [List.foldl_cons]
    rw [hstep]
    have hbs : noW (substDim d (Expr.add (.dimref (.stencil d)) (.num d.lo)) b) = true :=
      noW_substDim d (Expr.add (.dimref (.stencil d)) (.num d.lo)) rfl b hb
    rw [ih hnd.2 _ hbs rho sig arr wv]
    rw [evalE_substDim d (Expr.add (.dimref (.stencil d)) (.num d.lo))
      (shiftEnv rho rest) sig arr wv b hb]
    apply evalE_congr
    intro d'
    by_cases hd' : d' = Dim.stencil d
    · subst hd'
      simp [evalE, shiftEnv, asStencil, hnd.1]
    · rw [if_neg hd']
      simp only [shiftEnv]
      cases hset : asStencil d' with
      | none => rfl
      | some sd =>
        have hne : sd ≠ d := by
          intro hcon
          cases d' with
          | plain n => cases hset
          | stencil sd' =>
            injection hset with hsd
            exact hd' (by rw [hsd, hcon])
        simp [List.mem_cons, hne]

/-- C5: for every derivative node lowered by `_core`, every newly
introduced stencil dimension has, in the accumulation Cluster's space and
in the init Cluster's space (where present), the interval offsets `-d._min`
on both sides, so its iteration range starts at 0 whatever its original
symbolic lower bound; the accumulate expression's base is the node's base
with every new dimension `d` substituted by `d + d._min`, and evaluating
the shifted base at the 0-based counters equals evaluating the original
base at the correspondingly shifted counters: addressing is unchanged by
the translation. -/
theorem lowerDeriv_zero_start (pick : Pick) (b1 : Expr) (w0 : WFunction)
    (ds : List StencilDim) (dt : Dtype) (c : Cluster) (processed : List Cluster)
    (st : St) (r : Expr × List Cluster × St)
    (hok : lowerDeriv pick b1 w0 ds dt c processed st = .ok r) :
    ∃ (s : SSymbol) (isp1 : ISpace),
      r.2.1 = ⟨[Expr.eqn none (.sym s) (.num 0)], isp1⟩ :: processed ++
        [⟨[Expr.eqn (some .inc) (.sym s)
            (Expr.mul
              (shiftBase (replaceW w0 (resolveW w0 dt st).1 b1)
                (newDims (Expr.deriv b1 w0 ds dt) c))
              (Expr.windex (resolveW w0 dt st).1 ds))],
          accSpace c (newDims (Expr.deriv b1 w0 ds dt) c)⟩] ∧
      (∀ d ∈ newDims (Expr.deriv b1 w0 ds dt) c,
        (accSpace c (newDims (Expr.deriv b1 w0 ds dt) c)).find? (Dim.stencil d)
          = some ⟨Dim.stencil d, -d.lo, -d.lo⟩ ∧
        startOf ⟨Dim.stencil d, -d.lo, -d.lo⟩ = 0) ∧
      (∀ d ∈ newDims (Expr.deriv b1 w0 ds dt) c,
        ∀ dl, (newDims (Expr.deriv b1 w0 ds dt) c).getLast? = some dl → d ≠ dl →
          isp1.find? (Dim.stencil d) = some ⟨Dim.stencil d, -d.lo, -d.lo⟩) ∧
      (noW (replaceW w0 (resolveW w0 dt st).1 b1) = true →
        ∀ (rho : Dim → Int) (sig : String → Int) (arr : String → Int → Int)
          (wv : WFunction → List Int → Int),
          evalE rho sig arr wv
            (shiftBase (replaceW w0 (resolveW w0 dt st).1 b1)
              (newDims (Expr.deriv b1 w0 ds dt) c)) =
          evalE (shiftEnv rho (newDims (Expr.deriv b1 w0 ds dt) c)) sig arr wv
            (replaceW w0 (resolveW w0 dt st).1 b1)) := by
  obtain ⟨s, isp1, _, _, hproj, hv, _⟩ :=
    lowerDeriv_shape pick b1 w0 ds dt c processed st r hok
  have hfind : ∀ d ∈ newDims (Expr.deriv b1 w0 ds dt) c,
      (accSpace c (newDims (Expr.deriv b1 w0 ds dt) c)).find? (Dim.stencil d)
        = some ⟨Dim.stencil d, -d.lo, -d.lo⟩ := by
    intro d hd
    have := accSpace_find c (newDims (Expr.deriv b1 w0 ds dt) c)
      (newDims_nodup _ _) (newDims_not_mem _ _) d hd
    simpa using this
  refine ⟨s, isp1, hv, ?_, ?_, ?_⟩
  · intro d hd
    refine ⟨hfind d hd, ?_⟩
    simp [startOf, dimLo]
  · intro d hd dl hdl hne
    have hnonempty : newDims (Expr.deriv b1 w0 ds dt) c ≠ [] := by
      intro hemp
      rw [hemp] at hd
      cases hd
    obtain ⟨dl0, hdl0, hproj2⟩ := projectNotLast_ok c
      (newDims (Expr.deriv b1 w0 ds dt) c) hnonempty (newDims_nodup _ _)
      (newDims_not_mem _ _)
    rw [hdl0] at hdl
    injection hdl with hdleq
    subst hdleq
    rw [hproj2] at hproj
    injection hproj with hisp
    rw [← hisp]
    rw [find?_project _ _ _ (by
      simp only [decide_eq_true_eq]
      intro hcon
      exact hne (by injection hcon))]
    exact hfind d hd
  · intro hnow rho sig arr wv
    exact evalE_shiftBase (newDims (Expr.deriv b1 w0 ds dt) c)
      (newDims_nodup _ _) _ hnow rho sig arr wv

/-- Witness for `lowerDeriv_zero_start` at the concrete derivative `D(a)`
with stencil bounds [-1, 1] lowered inside an empty cluster over `x`. -/
theorem lowerDeriv_zero_start_witness :
    ∃ (s : SSymbol) (isp1 : ISpace),
      c1wR.2.1 = ⟨[Expr.eqn none (.sym s) (.num 0)], isp1⟩ :: [] ++
        [⟨[Expr.eqn (some .inc) (.sym s)
            (Expr.mul
              (shiftBase (replaceW w0in (resolveW w0in .f32 ⟨[], [], 0, 0, []⟩).1 baseIn)
                (newDims (Expr.deriv baseIn w0in [i0] .f32) ⟨[], ispX⟩))
              (Expr.windex (resolveW w0in .f32 ⟨[], [], 0, 0, []⟩).1 [i0]))],
          accSpace ⟨[], ispX⟩ (newDims (Expr.deriv baseIn w0in [i0] .f32) ⟨[], ispX⟩)⟩] ∧
      (∀ d ∈ newDims (Expr.deriv baseIn w0in [i0] .f32) ⟨[], ispX⟩,
        (accSpace ⟨[], ispX⟩
          (newDims (Expr.deriv baseIn w0in [i0] .f32) ⟨[], ispX⟩)).find? (Dim.stencil d)
          = some ⟨Dim.stencil d, -d.lo, -d.lo⟩ ∧
        startOf ⟨Dim.stencil d, -d.lo, -d.lo⟩ = 0) ∧
      (∀ d ∈ newDims (Expr.deriv baseIn w0in [i0] .f32) ⟨[], ispX⟩,
        ∀ dl, (newDims (Expr.deriv baseIn w0in [i0] .f32) ⟨[], ispX⟩).getLast?
            = some dl → d ≠ dl →
          isp1.find? (Dim.stencil d) = some ⟨Dim.stencil d, -d.lo, -d.lo⟩) ∧
      (noW (replaceW w0in (resolveW w0in .f32 ⟨[], [], 0, 0, []⟩).1 baseIn) = true →
        ∀ (rho : Dim → Int) (sig : String → Int) (arr : String → Int → Int)
          (wv : WFunction → List Int → Int),
          evalE rho sig arr wv
            (shiftBase (replaceW w0in (resolveW w0in .f32 ⟨[], [], 0, 0, []⟩).1 baseIn)
              (newDims (Expr.deriv baseIn w0in [i0] .f32) ⟨[], ispX⟩)) =
          evalE (shiftEnv rho (newDims (Expr.deriv baseIn w0in [i0] .f32) ⟨[], ispX⟩))
            sig arr wv
            (replaceW w0in (resolveW w0in .f32 ⟨[], [], 0, 0, []⟩).1 baseIn)) :=
  lowerDeriv_zero_start pickHead baseIn w0in [i0] .f32 ⟨[], ispX⟩ []
    ⟨[], [], 0, 0, []⟩ c1wR rfl

/-- Extension order on weights registries: every binding of the first is a
binding of the second. -/
def wmExt (m1 m2 : List (List Int × WFunction)) : Prop :=
  ∀ k w, wlookup k m1 = some w → wlookup k m2 = some w

/-- Extension is reflexive. -/
theorem wmExt_refl (m : List (List Int × WFunction)) : wmExt m m :=
  fun _ _ h => h

/-- Extension is transitive. -/
theorem wmExt_trans {m1 m2 m3 : List (List Int × WFunction)}
    (h1 : wmExt m1 m2) (h2 : wmExt m2 m3) : wmExt m1 m3 :=
  fun k w h => h2 k w (h1 k w h)

/-- A successful lookup survives appending bindings. -/
theorem wlookup_append_of_some {m : List (List Int × WFunction)}
    {l : List (List Int × WFunction)} {k : List Int} {w : WFunction}
    (h : wlookup k m = some w) : wlookup k (m ++ l) = some w := by
  induction m with
  | nil => cases h
  | cons kv m ih =>
    rw [wlookup] at h
    rw [List.cons_append, wlookup]
    by_cases hk : kv.1 = k
    · cases kv
      rw [if_pos hk] at h ⊢
      exact h
    · cases kv
      rw [if_neg hk] at h ⊢
      exact ih h

/-- A failed lookup finds a binding appended for its key. -/
theorem wlookup_append_none {m : List (List Int × WFunction)} {k : List Int}
    {w : WFunction} (h : wlookup k m = none) :
    wlookup k (m ++ [(k, w)]) = some w := by
  induction m with
  | nil => simp [wlookup]
  | cons kv m ih =>
    rw [wlookup] at h
    rw [List.cons_append, wlookup]
    by_cases hk : kv.1 = k
    · cases kv
      rw [if_pos hk] at h
      cases h
    · cases kv
      rw [if_neg hk] at h ⊢
      exact ih h

/-- Weight resolution returns the registered weights function when the
coefficient tuple is already present. -/
theorem resolveW_stable (w0 : WFunction) (dt : Dtype) (st : St) (w : WFunction)
    (h : wlookup w0.coeffs st.weights = some w) : (resolveW w0 dt st).1 = w := by
  simp only [resolveW]
  rw [show ({ st with wctr := st.wctr + 1 } : St).weights = st.weights from rfl, h]

/-- After a weight resolution, the coefficient tuple is bound to the
returned weights function. -/
theorem resolveW_mem (w0 : WFunction) (dt : Dtype) (st : St) :
    wlookup w0.coeffs (resolveW w0 dt st).2.weights = some (resolveW w0 dt st).1 := by
  simp only [resolveW]
  cases h : wlookup w0.coeffs ({ st with wctr := st.wctr + 1 } : St).weights with
  | some w => simpa using h
  | none => simpa using wlookup_append_none h

/-- Weight resolution only extends the registry. -/
theorem resolveW_ext (w0 : WFunction) (dt : Dtype) (st : St) :
    wmExt st.weights (resolveW w0 dt st).2.weights := by
  simp only [resolveW]
  cases h : wlookup w0.coeffs ({ st with wctr := st.wctr + 1 } : St).weights with
  | some w => simpa using wmExt_refl st.weights
  | none =>
    intro k w' hk
    simpa using wlookup_append_of_some hk

/-- A lowered derivative node leaves the registry exactly as its weight
resolution left it. -/
theorem lowerDeriv_weights (pick : Pick) (b1 : Expr) (w0 : WFunction)
    (ds : List StencilDim) (dt : Dtype) (c : Cluster) (processed : List Cluster)
    (st : St) (r : Expr × List Cluster × St)
    (hok : lowerDeriv pick b1 w0 ds dt c processed st = .ok r) :
    r.2.2.weights = (resolveW w0 dt st).2.weights := by
  simp only [lowerDeriv] at hok
  rcases hpick : pick (resolveW w0 dt st).2.pool with _ | ⟨s0, rest⟩
  · rw [hpick] at hok
    simp only at hok
    cases hproj : projectNotLast
        (accSpace c (newDims (replaceW w0 (resolveW w0 dt st).1
          (Expr.deriv b1 w0 ds dt)) c))
        (newDims (replaceW w0 (resolveW w0 dt st).1 (Expr.deriv b1 w0 ds dt)) c) with
    | error err => rw [hproj] at hok; cases hok
    | ok isp1 =>
      rw [hproj] at hok
      simp only at hok
      injection hok with hok2
      subst hok2
      rfl
  · rw [hpick] at hok
    simp only at hok
    by_cases hdt : s0.dtype = (resolveW w0 dt st).1.dtype
    · rw [if_pos hdt] at hok
      simp only at hok
      cases hproj : projectNotLast
          (accSpace c (newDims (replaceW w0 (resolveW w0 dt st).1
            (Expr.deriv b1 w0 ds dt)) c))
          (newDims (replaceW w0 (resolveW w0 dt st).1 (Expr.deriv b1 w0 ds dt)) c) with
      | error err => rw [hproj] at hok; cases hok
      | ok isp1 =>
        rw [hproj] at hok
        simp only at hok
        injection hok with hok2
        subst hok2
        rfl
    · rw [if_neg hdt] at hok
      cases hok

/-- The rewrite only extends the weights registry. -/
theorem core_weights_ext (pick : Pick) :
    ∀ (e : Expr) (c : Cluster) (st : St) (r : Expr × List Cluster × St),
      core pick e c st = .ok r → wmExt st.weights r.2.2.weights := by
  intro e
  induction e with
  | sym s =>
    intro c st r h
    injection h with h2
    subst h2
    exact wmExt_refl _
  | num n =>
    intro c st r h
    injection h with h2
    subst h2
    exact wmExt_refl _
  | dimref d =>
    intro c st r h
    injection h with h2
    subst h2
    exact wmExt_refl _
  | indexed a ix _ =>
    intro c st r h
    injection h with h2
    subst h2
    exact wmExt_refl _
  | windex w dsx =>
    intro c st r h
    injection h with h2
    subst h2
    exact wmExt_refl _
  | add a b iha ihb =>
    intro c st r h
    rw [core] at h
    cases h1 : core pick a c st with
    | error err => rw [h1] at h; cases h
    | ok r1 =>
      obtain ⟨a1, v1, st1⟩ := r1
      rw [h1] at h
      simp only at h
      cases h2 : core pick b c st1 with
      | error err => rw [h2] at h; cases h
      | ok r2 =>
        obtain ⟨b1, v2, st2⟩ := r2
        rw [h2] at h
        simp only at h
        injection h with h3
        subst h3
        exact wmExt_trans (iha c st (a1, v1, st1) h1) (ihb c st1 (b1, v2, st2) h2)
  | mul a b iha ihb =>
    intro c st r h
    rw [core] at h
    cases h1 : core pick a c st with
    | error err => rw [h1] at h; cases h
    | ok r1 =>
      obtain ⟨a1, v1, st1⟩ := r1
      rw [h1] at h
      simp only at h
      cases h2 : core pick b c st1 with
      | error err => rw [h2] at h; cases h
      | ok r2 =>
        obtain ⟨b1, v2, st2⟩ := r2
        rw [h2] at h
        simp only at h
        injection h with h3
        subst h3
        exact wmExt_trans (iha c st (a1, v1, st1) h1) (ihb c st1 (b1, v2, st2) h2)
  | pair a b iha ihb =>
    intro c st r h
    rw [core] at h
    cases h1 : core pick a c st with
    | error err => rw [h1] at h; cases h
    | ok r1 =>
      obtain ⟨a1, v1, st1⟩ := r1
      rw [h1] at h
      simp only at h
      cases h2 : core pick b c st1 with
      | error err => rw [h2] at h; cases h
      | ok r2 =>
        obtain ⟨b1, v2, st2⟩ := r2
        rw [h2] at h
        simp only at h
        injection h with h3
        subst h3
        exact wmExt_trans (iha c st (a1, v1, st1) h1) (ihb c st1 (b1, v2, st2) h2)
  | eqn op l rr ihl ihr =>
    intro c st r h
    rw [core] at h
    cases h1 : core pick l c st with
    | error err => rw [h1] at h; cases h
    | ok r1 =>
      obtain ⟨l1, v1, st1⟩ := r1
      rw [h1] at h
      simp only at h
      cases h2 : core pick rr c st1 with
      | error err => rw [h2] at h; cases h
      | ok r2 =>
        obtain ⟨r1e, v2, st2⟩ := r2
        rw [h2] at h
        simp only at h
        injection h with h3
        subst h3
        exact wmExt_trans (ihl c st (l1, v1, st1) h1) (ihr c st1 (r1e, v2, st2) h2)
  | deriv b w0 dsx dt ih =>
    intro c st r h
    rw [core] at h
    cases h1 : core pick b c st with
    | error err => rw [h1] at h; cases h
    | ok r1 =>
      obtain ⟨b1, v1, st1⟩ := r1
      rw [h1] at h
      simp only at h
      have hw := lowerDeriv_weights pick b1 w0 dsx dt c v1 st1 r h
      refine wmExt_trans (ih c st (b1, v1, st1) h1) ?_
      rw [hw]
      exact resolveW_ext w0 dt st1

/-- C4: the weight registry maps equal coefficient tuples to one concrete
weight symbol within a run.  (1) Resolving a tuple already in the registry
returns the registered weights function; (2) after any resolution the tuple
is bound to the returned function; (3) the rewrite of any expression only
extends the registry; hence (4) resolving a tuple, lowering any further
expression, and then resolving an equal tuple yields one and the same
weights function. -/
theorem weight_sharing :
    (∀ (w0 : WFunction) (dt : Dtype) (st : St) (w : WFunction),
      wlookup w0.coeffs st.weights = some w → (resolveW w0 dt st).1 = w) ∧
    (∀ (w0 : WFunction) (dt : Dtype) (st : St),
      wlookup w0.coeffs (resolveW w0 dt st).2.weights = some (resolveW w0 dt st).1) ∧
    (∀ (pick : Pick) (e : Expr) (c : Cluster) (st : St)
      (r : Expr × List Cluster × St),
      core pick e c st = .ok r → wmExt st.weights r.2.2.weights) ∧
    (∀ (w0 w0' : WFunction) (dt dt' : Dtype) (st : St) (pick : Pick) (e : Expr)
      (c : Cluster) (r : Expr × List Cluster × St),
      core pick e c (resolveW w0 dt st).2 = .ok r →
      w0'.coeffs = w0.coeffs →
      (resolveW w0' dt' r.2.2).1 = (resolveW w0 dt st).1) := by
  refine ⟨resolveW_stable, resolveW_mem, core_weights_ext, ?_⟩
  intro w0 w0' dt dt' st pick e c r hcore hco
  have h1 := resolveW_mem w0 dt st
  have h2 := core_weights_ext pick e c (resolveW w0 dt st).2 r hcore
    w0.coeffs (resolveW w0 dt st).1 h1
  apply resolveW_stable
  rw [hco]
  exact h2

/-- Witness for `weight_sharing`: the tuples of `w0in` and `w0out` are
equal, so after resolving `w0in` and rewriting a further expression, the
resolution of `w0out` returns the very weights function minted for `w0in`. -/
theorem weight_sharing_witness :
    (resolveW w0out .f32 (resolveW w0in .f32 ⟨[], [], 0, 0, []⟩).2).1
      = (resolveW w0in .f32 ⟨[], [], 0, 0, []⟩).1 :=
  weight_sharing.2.2.2 w0in w0out .f32 .f32 ⟨[], [], 0, 0, []⟩ pickHead
    (.sym asym) cPA (.sym asym, [], (resolveW w0in .f32 ⟨[], [], 0, 0, []⟩).2)
    rfl rfl

/-- The head-popping policy is a valid pop. -/
theorem pickValid_head : PickValid pickHead := by
  constructor
  · rfl
  · intro a l
    exact ⟨a, l, rfl, List.Perm.refl _⟩

/-- The last-popping policy is a valid pop. -/
theorem pickValid_last : PickValid pickLast := by
  constructor
  · rfl
  · intro a l
    induction l generalizing a with
    | nil => exact ⟨a, [], rfl, List.Perm.refl _⟩
    | cons b l ih =>
      obtain ⟨x, rest, hx, hperm⟩ := ih b
      refine ⟨x, a :: rest, ?_, ?_⟩
      · rw [pickLast, hx]
      · exact (hperm.cons a).trans (List.Perm.swap x a rest)

/-- The accumulator symbol of an equation: its left side when that is a
bare symbol. -/
def lhsSym? : Expr → Option SSymbol
  | .eqn _ (.sym s) _ => some s
  | _ => none

/-- All accumulator symbols written by the equations of a cluster list. -/
def accSyms (cls : List Cluster) : List SSymbol :=
  (cls.map (fun c => c.exprs.filterMap lhsSym?)).flatten

/-- `accSyms` distributes over cons. -/
theorem accSyms_cons (c : Cluster) (l : List Cluster) :
    accSyms (c :: l) = c.exprs.filterMap lhsSym? ++ accSyms l := by
  simp [accSyms]

/-- `accSyms` distributes over append. -/
theorem accSyms_append (l1 l2 : List Cluster) :
    accSyms (l1 ++ l2) = accSyms l1 ++ accSyms l2 := by
  simp [accSyms]

/-- No equation whose operation is plain assignment has equal sides. -/
def noTrivEq : Expr → Bool
  | .eqn none l r => decide (l ≠ r)
  | _ => true

/-- `_core` returns leaves unchanged. -/
theorem core_leaf (pick : Pick) (e : Expr) (c : Cluster) (st : St)
    (h : qLeaf e = true) : core pick e c st = .ok (e, [], st) := by
  cases e with
  | sym s => rfl
  | num n => rfl
  | dimref d => rfl
  | indexed a ix => rfl
  | windex w ds => rfl
  | add a b => cases h
  | mul a b => cases h
  | pair a b => cases h
  | eqn op l r => cases h
  | deriv b w ds dt => cases h

/-- Invariants of one derivative lowering: the pool only shrinks (by the
popped element), the temporaries counter never decreases, every accumulator
of the emitted clusters is an inner accumulator, a pool element, or a fresh
registry symbol, and no emitted cluster contains a degenerate plain
equation. -/
theorem lowerDeriv_inv (pick : Pick) (hp : PickValid pick) (b1 : Expr)
    (w0 : WFunction) (ds : List StencilDim) (dt : Dtype) (c : Cluster)
    (processed : List Cluster) (st : St) (r : Expr × List Cluster × St)
    (hok : lowerDeriv pick b1 w0 ds dt c processed st = .ok r) :
    (∀ x, x ∈ r.2.2.pool → x ∈ st.pool) ∧
    st.rctr ≤ r.2.2.rctr ∧
    (∀ x, x ∈ accSyms r.2.1 → x ∈ accSyms processed ∨ x ∈ st.pool ∨
      ∃ k, st.rctr ≤ k ∧ x.name = rname k) ∧
    ((processed.all fun cl => cl.exprs.all noTrivEq) = true →
      (r.2.1.all fun cl => cl.exprs.all noTrivEq) = true) := by
  obtain ⟨s, isp1, _, _, _, hv, hpool⟩ :=
    lowerDeriv_shape pick b1 w0 ds dt c processed st r hok
  have hacc : accSyms r.2.1 = s :: (accSyms processed ++ [s]) := by
    rw [hv]
    simp [accSyms, lhsSym?]
  have htriv : (processed.all fun cl => cl.exprs.all noTrivEq) = true →
      (r.2.1.all fun cl => cl.exprs.all noTrivEq) = true := by
    intro hpr
    rw [List.all_eq_true] at hpr
    rw [hv, List.all_eq_true]
    intro cl hcl
    rcases List.mem_cons.mp hcl with h1 | h2
    · subst h1
      simp only [List.all_cons, List.all_nil, Bool.and_true]
      show decide (Expr.sym s ≠ Expr.num 0) = true
      exact decide_eq_true (fun hcon => Expr.noConfusion hcon)
    · rcases List.mem_append.mp h2 with h3 | h4
      · exact hpr cl h3
      · rw [List.mem_singleton] at h4
        subst h4
        rfl
  rcases hpool with ⟨rest, hpick, hrp, hrc⟩ | ⟨hpick, hsn, hrp, hrc⟩
  · have hperm : st.pool.Perm (s :: rest) := by
      cases hsp : st.pool with
      | nil =>
        rw [hsp] at hpick
        rw [hp.1] at hpick
        cases hpick
      | cons a l =>
        obtain ⟨x, rest', hpx, hpm⟩ := hp.2 a l
        rw [hsp] at hpick
        rw [hpx] at hpick
        injection hpick with h1
        injection h1 with hx hr
        subst hx
        subst hr
        exact hpm
    refine ⟨?_, ?_, ?_, htriv⟩
    · intro x hx
      rw [hrp] at hx
      exact hperm.mem_iff.mpr (List.mem_cons_of_mem _ hx)
    · rw [hrc]
    · intro x hx
      rw [hacc] at hx
      rcases List.mem_cons.mp hx with hxs | hx2
      · subst hxs
        exact Or.inr (Or.inl (hperm.mem_iff.mpr (List.mem_cons_self _ _)))
      · rcases List.mem_append.mp hx2 with hx3 | hx4
        · exact Or.inl hx3
        · rw [List.mem_singleton] at hx4
          subst hx4
          exact Or.inr (Or.inl (hperm.mem_iff.mpr (List.mem_cons_self _ _)))
  · refine ⟨?_, ?_, ?_, htriv⟩
    · intro x hx
      rw [hrp] at hx
      exact hx
    · rw [hrc]
      exact Nat.le_succ _
    · intro x hx
      rw [hacc] at hx
      rcases List.mem_cons.mp hx with hxs | hx2
      · subst hxs
        exact Or.inr (Or.inr ⟨st.rctr, Nat.le_refl _, hsn⟩)
      · rcases List.mem_append.mp hx2 with hx3 | hx4
        · exact Or.inl hx3
        · rw [List.mem_singleton] at hx4
          subst hx4
          exact Or.inr (Or.inr ⟨st.rctr, Nat.le_refl _, hsn⟩)

/-- The invariant carried through the rewrite: the pool only shrinks, the
temporaries counter never decreases, every accumulator of the emitted
clusters comes from the pool or is a fresh registry symbol, and no emitted
cluster contains a degenerate plain equation. -/
def InvP (st st' : St) (v : List Cluster) : Prop :=
  (∀ x, x ∈ st'.pool → x ∈ st.pool) ∧
  st.rctr ≤ st'.rctr ∧
  (∀ x, x ∈ accSyms v → x ∈ st.pool ∨ ∃ k, st.rctr ≤ k ∧ x.name = rname k) ∧
  (v.all fun cl => cl.exprs.all noTrivEq) = true

/-- The invariant holds trivially of an unchanged state. -/
theorem invP_nil (st : St) : InvP st st [] :=
  ⟨fun _ h => h, Nat.le_refl _, fun x hx => absurd hx (by simp [accSyms]), rfl⟩

/-- The invariant composes along sequenced rewrites. -/
theorem invP_combine {st st1 st2 : St} {v1 v2 : List Cluster}
    (h1 : InvP st st1 v1) (h2 : InvP st1 st2 v2) : InvP st st2 (v1 ++ v2) := by
  obtain ⟨p1, r1, a1, t1⟩ := h1
  obtain ⟨p2, r2, a2, t2⟩ := h2
  refine ⟨fun x hx => p1 x (p2 x hx), Nat.le_trans r1 r2, ?_, ?_⟩
  · intro x hx
    rw [accSyms_append] at hx
    rcases List.mem_append.mp hx with h | h
    · exact a1 x h
    · rcases a2 x h with hpool | ⟨k, hk, hn⟩
      · exact Or.inl (p1 x hpool)
      · exact Or.inr ⟨k, Nat.le_trans r1 hk, hn⟩
  · simp [List.all_append, t1, t2]

/-- The rewrite maintains the invariant. -/
theorem core_inv (pick : Pick) (hp : PickValid pick) :
    ∀ (e : Expr) (c : Cluster) (st : St) (r : Expr × List Cluster × St),
      core pick e c st = .ok r → InvP st r.2.2 r.2.1 := by
  intro e
  induction e with
  | sym s =>
    intro c st r h
    injection h with h2
    subst h2
    exact invP_nil st
  | num n =>
    intro c st r h
    injection h with h2
    subst h2
    exact invP_nil st
  | dimref d =>
    intro c st r h
    injection h with h2
    subst h2
    exact invP_nil st
  | indexed a ix _ =>
    intro c st r h
    injection h with h2
    subst h2
    exact invP_nil st
  | windex w dsx =>
    intro c st r h
    injection h with h2
    subst h2
    exact invP_nil st
  | add a b iha ihb =>
    intro c st r h
    rw [core] at h
    cases h1 : core pick a c st with
    | error err => rw [h1] at h; cases h
    | ok r1 =>
      obtain ⟨a1, v1, st1⟩ := r1
      rw [h1] at h
      simp only at h
      cases h2 : core pick b c st1 with
      | error err => rw [h2] at h; cases h
      | ok r2 =>
        obtain ⟨b1, v2, st2⟩ := r2
        rw [h2] at h
        simp only at h
        injection h with h3
        subst h3
        exact invP_combine (iha c st (a1, v1, st1) h1) (ihb c st1 (b1, v2, st2) h2)
  | mul a b iha ihb =>
    intro c st r h
    rw [core] at h
    cases h1 : core pick a c st with
    | error err => rw [h1] at h; cases h
    | ok r1 =>
      obtain ⟨a1, v1, st1⟩ := r1
      rw [h1] at h
      simp only at h
      cases h2 : core pick b c st1 with
      | error err => rw [h2] at h; cases h
      | ok r2 =>
        obtain ⟨b1, v2, st2⟩ := r2
        rw [h2] at h
        simp only at h
        injection h with h3
        subst h3
        exact invP_combine (iha c st (a1, v1, st1) h1) (ihb c st1 (b1, v2, st2) h2)
  | pair a b iha ihb =>
    intro c st r h
    rw [core] at h
    cases h1 : core pick a c st with
    | error err => rw [h1] at h; cases h
    | ok r1 =>
      obtain ⟨a1, v1, st1⟩ := r1
      rw [h1] at h
      simp only at h
      cases h2 : core pick b c st1 with
      | error err => rw [h2] at h; cases h
      | ok r2 =>
        obtain ⟨b1, v2, st2⟩ := r2
        rw [h2] at h
        simp only at h
        injection h with h3
        subst h3
        exact invP_combine (iha c st (a1, v1, st1) h1) (ihb c st1 (b1, v2, st2) h2)
  | eqn op l rr ihl ihr =>
    intro c st r h
    rw [core] at h
    cases h1 : core pick l c st with
    | error err => rw [h1] at h; cases h
    | ok r1 =>
      obtain ⟨l1, v1, st1⟩ := r1
      rw [h1] at h
      simp only at h
      cases h2 : core pick rr c st1 with
      | error err => rw [h2] at h; cases h
      | ok r2 =>
        obtain ⟨r1e, v2, st2⟩ := r2
        rw [h2] at h
        simp only at h
        injection h with h3
        subst h3
        exact invP_combine (ihl c st (l1, v1, st1) h1) (ihr c st1 (r1e, v2, st2) h2)
  | deriv b w0 dsx dt ih =>
    intro c st r h
    rw [core] at h
    cases h1 : core pick b c st with
    | error err => rw [h1] at h; cases h
    | ok r1 =>
      obtain ⟨b1, v1, st1⟩ := r1
      rw [h1] at h
      simp only at h
      obtain ⟨pb, rb, ab, tb⟩ := ih c st (b1, v1, st1) h1
      obtain ⟨pd, rd, ad, td⟩ := lowerDeriv_inv pick hp b1 w0 dsx dt c v1 st1 r h
      refine ⟨fun x hx => pb x (pd x hx), Nat.le_trans rb rd, ?_, td tb⟩
      intro x hx
      rcases ad x hx with h2 | h2 | ⟨k, hk, hn⟩
      · exact ab x h2
      · exact Or.inl (pb x h2)
      · exact Or.inr ⟨k, Nat.le_trans rb hk, hn⟩

/-- C7: a symbol that is not in the reuse pool built from the equation
being processed and whose name can never be minted by the temporaries
registry is never used as an accumulator while lowering that equation.  The
pool passed to `_core` is built fresh from the equation alone
(`poolOf`), so a destination symbol proposed for reuse by a different
source equation — which is that equation's own left side — is never used as
an accumulator here unless it is also this equation's own destination. -/
theorem reuse_pool_scoped (pick : Pick) (c : Cluster) (e : Expr) (st : St)
    (r : Expr × List Cluster × St) (x : SSymbol)
    (hp : PickValid pick)
    (hok : lowerEq pick c e st = .ok r)
    (hx1 : x ∉ poolOf e)
    (hx2 : ∀ k, x.name ≠ rname k) :
    x ∉ accSyms r.2.1 := by
  intro hmem
  have hinv := core_inv pick hp e c { st with pool := poolOf e } r hok
  rcases hinv.2.2.1 x hmem with hpool | ⟨k, _, hn⟩
  · exact hx1 hpool
  · exact hx2 k hn

/-- Every registry-minted temporary name starts with the character `r`. -/
theorem rname_data (k : Nat) : (rname k).data = 'r' :: (Nat.repr k).data := rfl

/-- The user symbol name `p` is not a registry-minted temporary name. -/
theorem psym_not_rname : ∀ k : Nat, psym.name ≠ rname k := by
  intro k h
  have hdata := congrArg String.data h
  rw [rname_data] at hdata
  injection hdata with h1 _
  exact absurd h1 (by decide)

/-- The accumulation equation of the `q = D(a)` witness run. -/
def qIncE : Expr := .eqn (some .inc) (.sym qsym) (.mul shiftedBaseA (.windex w0res [i0]))

/-- The full result of the `q = D(a)` witness run. -/
def c7wR : Expr × List Cluster × St :=
  (.eqn none (.sym qsym) (.sym qsym),
   [⟨[.eqn none (.sym qsym) (.num 0)], ispXproj⟩, ⟨[qIncE], ispXI0⟩],
   ⟨[([1, -2, 1], w0res)],
    [(.mul shiftedBaseA (.windex w0res [i0]), [qsym])], 1, 0, []⟩)

/-- Witness for `reuse_pool_scoped`: while lowering `q = D(a)` the
destination symbol `p` of another equation is never used as an
accumulator. -/
theorem reuse_pool_scoped_witness : psym ∉ accSyms c7wR.2.1 :=
  reuse_pool_scoped pickHead ⟨[], ispX⟩ (.eqn none (.sym qsym) derivIn)
    ⟨[], [], 0, 0, []⟩ c7wR psym pickValid_head rfl (by decide) psym_not_rname

/-- All flushed clusters and all buffered equations are free of degenerate
plain equations. -/
def AccOK (a : Acc) : Prop :=
  (a.processed.all fun cl => cl.exprs.all noTrivEq) = true ∧
  (a.buf.all noTrivEq) = true

/-- Flushing the buffer preserves freedom from degenerate equations. -/
theorem dumpBuf_ok (c : Cluster) (a : Acc) (h : AccOK a) : AccOK (dumpBuf c a) := by
  unfold dumpBuf
  by_cases hb : a.buf = []
  · rw [if_pos hb]
    exact h
  · rw [if_neg hb]
    refine ⟨?_, rfl⟩
    simp only [List.all_append, List.all_cons, List.all_nil, Bool.and_true,
      Bool.and_eq_true]
    exact ⟨h.1, h.2⟩

/-- The rewrite of a well-formed equation keeps its head and left side. -/
theorem core_eqn (pick : Pick) (op : Option OpK) (l rr : Expr) (c : Cluster)
    (st : St) (hl : qLeaf l = true) (r : Expr × List Cluster × St)
    (hok : core pick (.eqn op l rr) c st = .ok r) :
    ∃ r1 v st1, r = (.eqn op l r1, v, st1) := by
  rw [core] at hok
  rw [core_leaf pick l c st hl] at hok
  simp only at hok
  cases h2 : core pick rr c st with
  | error err => rw [h2] at hok; cases hok
  | ok r2 =>
    obtain ⟨r1, v2, st2⟩ := r2
    rw [h2] at hok
    simp only at hok
    injection hok with h3
    exact ⟨r1, [] ++ v2, st2, h3.symm⟩

/-- One step of the equation loop preserves freedom from degenerate plain
equations: emitted clusters contain only init/accumulate equations, and a
rewritten equation is buffered only when its left side differs from its
rewritten right side. -/
theorem lowerStep_noTriv (pick : Pick) (hp : PickValid pick) (c : Cluster)
    (a a' : Acc) (e : Expr)
    (hwild : isEqn e = true) (hleaf : qLeaf (lhsOf e) = true)
    (hok : lowerStep pick c a e = .ok a') (hA : AccOK a) : AccOK a' := by
  cases e with
  | sym s => cases hwild
  | num n => cases hwild
  | dimref d => cases hwild
  | indexed nm ix => cases hwild
  | windex w dsx => cases hwild
  | add x y => cases hwild
  | mul x y => cases hwild
  | pair x y => cases hwild
  | deriv b w dsx dt => cases hwild
  | eqn op l rr =>
    have hl : qLeaf l = true := hleaf
    unfold lowerStep lowerEq at hok
    cases hc : core pick (.eqn op l rr) c
        { a.st with pool := poolOf (.eqn op l rr) } with
    | error err => rw [hc] at hok; cases hok
    | ok r =>
      obtain ⟨r1, v, st1, hr⟩ := core_eqn pick op l rr c
        { a.st with pool := poolOf (.eqn op l rr) } hl r hc
      subst hr
      rw [hc] at hok
      simp only at hok
      have hv : (v.all fun cl => cl.exprs.all noTrivEq) = true := by
        have := (core_inv pick hp (.eqn op l rr) c
          { a.st with pool := poolOf (.eqn op l rr) } (.eqn op l r1, v, st1) hc).2.2.2
        simpa using this
      have hA2 : AccOK (if ([] ++ v : List Cluster) = [] then
          ({ a with st := st1 } : Acc)
        else { dumpBuf c { a with st := st1 } with
          processed := (dumpBuf c { a with st := st1 }).processed ++ ([] ++ v) }) := by
        by_cases hveq : ([] ++ v : List Cluster) = []
        · rw [if_pos hveq]
          exact hA
        · rw [if_neg hveq]
          have hd := dumpBuf_ok c { a with st := st1 } hA
          refine ⟨?_, hd.2⟩
          simp only [List.all_append, Bool.and_eq_true]
          refine ⟨hd.1, ?_⟩
          simpa using hv
      by_cases hdrop : lhsOf (Expr.eqn op l rr) = rhsOf (Expr.eqn op l r1)
      · rw [if_pos hdrop] at hok
        injection hok with h4
        subst h4
        exact hA2
      · rw [if_neg hdrop] at hok
        injection hok with h4
        subst h4
        refine ⟨hA2.1, ?_⟩
        simp only [List.all_append, List.all_cons, List.all_nil, Bool.and_true,
          Bool.and_eq_true]
        refine ⟨hA2.2, ?_⟩
        cases op with
        | none =>
          show decide (l ≠ r1) = true
          exact decide_eq_true (fun hcon => hdrop hcon)
        | some o => rfl

/-- The equation loop preserves freedom from degenerate plain equations. -/
theorem lowerFold_noTriv (pick : Pick) (hp : PickValid pick) (c : Cluster) :
    ∀ (es : List Expr) (a a' : Acc),
      (∀ e ∈ es, isEqn e = true ∧ qLeaf (lhsOf e) = true) →
      es.foldlM (lowerStep pick c) a = .ok a' → AccOK a → AccOK a' := by
  intro es
  induction es with
  | nil =>
    intro a a' _ hok hA
    rw [List.foldlM_nil] at hok
    injection hok with h2
    subst h2
    exact hA
  | cons e es ih =>
    intro a a' hwf hok hA
    rw [List.foldlM_cons] at hok
    cases h1 : lowerStep pick c a e with
    | error err => rw [h1] at hok; cases hok
    | ok a1 =>
      rw [h1, okBind] at hok
      obtain ⟨hw1, hw2⟩ := hwf e (List.mem_cons_self e es)
      exact ih a1 a' (fun e' he' => hwf e' (List.mem_cons_of_mem _ he')) hok
        (lowerStep_noTriv pick hp c a a1 e hw1 hw2 h1 hA)

/-- The cluster loop preserves freedom from degenerate plain equations. -/
theorem lowerCluster_noTriv (pick : Pick) (hp : PickValid pick)
    (a a' : Acc) (c : Cluster)
    (hwf : ∀ e ∈ c.exprs, isEqn e = true ∧ qLeaf (lhsOf e) = true)
    (hok : lowerCluster pick a c = .ok a')
    (h : (a.processed.all fun cl => cl.exprs.all noTrivEq) = true) :
    (a'.processed.all fun cl => cl.exprs.all noTrivEq) = true := by
  unfold lowerCluster at hok
  cases h1 : c.exprs.foldlM (lowerStep pick c) { a with buf := [] } with
  | error err => rw [h1] at hok; cases hok
  | ok a1 =>
    rw [h1] at hok
    injection hok with h2
    subst h2
    have hA1 := lowerFold_noTriv pick hp c c.exprs { a with buf := [] } a1 hwf h1
      ⟨h, rfl⟩
    exact (dumpBuf_ok c a1 hA1).1

/-- C8: for every input whose equations are proper equations with leaf left
sides, no Cluster produced by `_lower_index_derivatives` contains a
degenerate plain equation with identical sides: a source equation that
degenerated to `r = r` (its own destination reused as the accumulator of
its rewritten right side) is dropped rather than emitted. -/
theorem no_trivial_identity_eq (pick : Pick) (hp : PickValid pick)
    (cs : List Cluster) (wc rc : Nat) (a : Acc)
    (hwf : ∀ c ∈ cs, ∀ e ∈ c.exprs, isEqn e = true ∧ qLeaf (lhsOf e) = true)
    (hok : lowerAll pick cs wc rc = .ok a) :
    (a.processed.all fun cl => cl.exprs.all noTrivEq) = true := by
  unfold lowerAll at hok
  suffices hgen : ∀ (l : List Cluster) (a0 a1 : Acc),
      (∀ c ∈ l, ∀ e ∈ c.exprs, isEqn e = true ∧ qLeaf (lhsOf e) = true) →
      l.foldlM (lowerCluster pick) a0 = .ok a1 →
      (a0.processed.all fun cl => cl.exprs.all noTrivEq) = true →
      (a1.processed.all fun cl => cl.exprs.all noTrivEq) = true by
    exact hgen cs ⟨[], [], ⟨[], [], wc, rc, []⟩⟩ a hwf hok rfl
  intro l
  induction l with
  | nil =>
    intro a0 a1 _ hok2 h0
    rw [List.foldlM_nil] at hok2
    injection hok2 with h2
    subst h2
    exact h0
  | cons c l ih =>
    intro a0 a1 hwf2 hok2 h0
    rw [List.foldlM_cons] at hok2
    cases h1 : lowerCluster pick a0 c with
    | error err => rw [h1] at hok2; cases hok2
    | ok amid =>
      rw [h1, okBind] at hok2
      exact ih amid a1 (fun c' hc' => hwf2 c' (List.mem_cons_of_mem _ hc')) hok2
        (lowerCluster_noTriv pick hp a0 amid c (hwf2 c (List.mem_cons_self c l)) h1 h0)

/-- The full result of the `u = D(a)` witness run: the source equation
degenerated to `u = u` and was dropped. -/
def c8wAcc : Acc :=
  ⟨[⟨[.eqn none (.sym usym) (.num 0)], ispXproj⟩,
    ⟨[.eqn (some .inc) (.sym usym) (.mul shiftedBaseA (.windex w0res [i0]))], ispXI0⟩],
   [],
   ⟨[([1, -2, 1], w0res)],
    [(.mul shiftedBaseA (.windex w0res [i0]), [usym])], 1, 0, []⟩⟩

/-- Witness for `no_trivial_identity_eq` at the concrete input `u = D(a)`. -/
theorem no_trivial_identity_eq_witness :
    (c8wAcc.processed.all fun cl => cl.exprs.all noTrivEq) = true :=
  no_trivial_identity_eq pickHead pickValid_head
    [⟨[.eqn none (.sym usym) derivIn], ispX⟩] 0 0 c8wAcc (by decide) rfl

/-- C9: (abort) when the pool yields an accumulator whose dtype differs
from the resolved weight's dtype, the lowering of the derivative node
aborts with the assertion error instead of continuing; (soundness) whenever
a lowered result is produced, its accumulator's dtype equals the dtype of
the resolved weights function indexed in the accumulation expression. -/
theorem pool_dtype_assert :
    (∀ (pick : Pick) (b1 : Expr) (w0 : WFunction) (ds : List StencilDim)
      (dt : Dtype) (c : Cluster) (processed : List Cluster) (st : St)
      (x : SSymbol) (rest : List SSymbol),
      pick (resolveW w0 dt st).2.pool = some (x, rest) →
      x.dtype ≠ (resolveW w0 dt st).1.dtype →
      lowerDeriv pick b1 w0 ds dt c processed st = .error .assertionError) ∧
    (∀ (pick : Pick) (b1 : Expr) (w0 : WFunction) (ds : List StencilDim)
      (dt : Dtype) (c : Cluster) (processed : List Cluster) (st : St)
      (r : Expr × List Cluster × St),
      lowerDeriv pick b1 w0 ds dt c processed st = .ok r →
      ∃ (s : SSymbol) (isp1 : ISpace),
        r.1 = Expr.sym s ∧
        s.dtype = (resolveW w0 dt st).1.dtype ∧
        r.2.1 = ⟨[Expr.eqn none (.sym s) (.num 0)], isp1⟩ :: processed ++
          [⟨[Expr.eqn (some .inc) (.sym s)
              (Expr.mul
                (shiftBase (replaceW w0 (resolveW w0 dt st).1 b1)
                  (newDims (Expr.deriv b1 w0 ds dt) c))
                (Expr.windex (resolveW w0 dt st).1 ds))],
            accSpace c (newDims (Expr.deriv b1 w0 ds dt) c)⟩]) := by
  constructor
  · intro pick b1 w0 ds dt c processed st x rest hpick hne
    simp only [lowerDeriv]
    simp only [hpick]
    rw [if_neg hne]
  · intro pick b1 w0 ds dt c processed st r hok
    obtain ⟨s, isp1, h1, h2, _, h4, _⟩ :=
      lowerDeriv_shape pick b1 w0 ds dt c processed st r hok
    exact ⟨s, isp1, h1, h2, h4⟩

/-- A pool symbol of the wrong dtype. -/
def badSym : SSymbol := ⟨"b", .f64⟩

/-- Witness for `pool_dtype_assert`: a pool holding a 64-bit symbol while
lowering a 32-bit derivative aborts with the assertion error. -/
theorem pool_dtype_assert_witness :
    lowerDeriv pickHead baseIn w0in [i0] .f32 ⟨[], ispX⟩ []
      ⟨[], [], 0, 0, [badSym]⟩ = .error .assertionError :=
  pool_dtype_assert.1 pickHead baseIn w0in [i0] .f32 ⟨[], ispX⟩ []
    ⟨[], [], 0, 0, [badSym]⟩ badSym [] rfl (by decide)

/-- The iteration space of a cluster that already carries the stencil
dimension `i0` (an explicitly pinned tap window). -/
def ispPinned : ISpace :=
  ⟨[⟨.stencil i0, 0, 0⟩], [(.stencil i0, .forward)], []⟩

/-- C10: for a derivative node that has at least one stencil dimension but
all of whose stencil dimensions already appear in the enclosing cluster's
iteration space, `_core` fails with the out-of-range error (the `dims[-1]`
access inside the init-space projection) instead of returning a lowered
result. -/
theorem all_dims_pinned_index_error (pick : Pick) (b1 : Expr) (w0 : WFunction)
    (ds : List StencilDim) (dt : Dtype) (c : Cluster) (processed : List Cluster)
    (st : St)
    (hne : stencilDimsOf (Expr.deriv b1 w0 ds dt) ≠ [])
    (hall : ∀ d ∈ stencilDimsOf (Expr.deriv b1 w0 ds dt),
      c.ispace.hasDim (Dim.stencil d) = true)
    (hpick : pick (resolveW w0 dt st).2.pool = none) :
    lowerDeriv pick b1 w0 ds dt c processed st = .error .indexError := by
  simp only [lowerDeriv]
  rw [newDims_replaceW]
  have hnd : newDims (Expr.deriv b1 w0 ds dt) c = [] := by
    unfold newDims
    rw [List.filter_eq_nil_iff]
    intro d hd
    rw [List.mem_reverse] at hd
    simp [hall d hd]
  rw [hnd, hpick]
  have hiv : (accSpace c []).intervals ≠ [] := by
    obtain ⟨d, hd⟩ : ∃ d, d ∈ stencilDimsOf (Expr.deriv b1 w0 ds dt) := by
      cases hcase : stencilDimsOf (Expr.deriv b1 w0 ds dt) with
      | nil => exact absurd hcase hne
      | cons d l => exact ⟨d, List.mem_cons_self d l⟩
    have hm := hall d hd
    intro hemp
    unfold accSpace ISpace.union at hemp
    rw [List.foldl_nil] at hemp
    simp only at hemp
    rw [List.append_eq_nil] at hemp
    have h1 := hemp.1
    rw [List.map_eq_nil_iff] at h1
    rw [ISpace.hasDim, ISpace.itdims, h1] at hm
    simp at hm
  have hperr : projectNotLast (accSpace c []) [] = .error .indexError := by
    unfold projectNotLast
    cases hivs : (accSpace c []).intervals with
    | nil => exact absurd hivs hiv
    | cons iv rest => rfl
  rw [hperr]

/-- Witness for `all_dims_pinned_index_error`: lowering `D(a)` inside a
cluster whose space already pins `i0` hits the out-of-range error. -/
theorem all_dims_pinned_index_error_witness :
    lowerDeriv pickHead baseIn w0in [i0] .f32 ⟨[], ispPinned⟩ []
      ⟨[], [], 0, 0, []⟩ = .error .indexError :=
  all_dims_pinned_index_error pickHead baseIn w0in [i0] .f32 ⟨[], ispPinned⟩ []
    ⟨[], [], 0, 0, []⟩ (by decide) (by decide) rfl

/-- On pools of at most one element, every valid pop policy agrees with the
head-popping policy. -/
theorem pick_eq_small (p : Pick) (hp : PickValid p) (l : List SSymbol)
    (hl : l.length ≤ 1) : p l = pickHead l := by
  cases l with
  | nil =>
    rw [hp.1]
    rfl
  | cons a t =>
    cases t with
    | nil =>
      obtain ⟨x, rest, hx, hperm⟩ := hp.2 a []
      have hsingle : x :: rest = [a] := List.perm_singleton.mp hperm.symm
      injection hsingle with h1 h2
      subst h1
      subst h2
      rw [hx]
      rfl
    | cons b t2 => simp at hl

/-- The reuse pool of any equation holds at most one element. -/
theorem poolOf_len (e : Expr) : (poolOf e).length ≤ 1 := by
  unfold poolOf
  split
  · exact Nat.le_refl 1
  · exact Nat.zero_le 1

/-- On states whose pool holds at most one element, the rewrite under any
valid pop policy agrees with the rewrite under the head-popping policy, and
the pool never grows. -/
theorem core_pick_head (p : Pick) (hp : PickValid p) :
    ∀ (e : Expr) (c : Cluster) (st : St), st.pool.length ≤ 1 →
      core p e c st = core pickHead e c st ∧
      (∀ r : Expr × List Cluster × St, core pickHead e c st = .ok r →
        r.2.2.pool.length ≤ st.pool.length) := by
  intro e
  induction e with
  | sym s =>
    intro c st _
    refine ⟨rfl, fun r h => ?_⟩
    injection h with h2
    subst h2
    exact Nat.le_refl _
  | num n =>
    intro c st _
    refine ⟨rfl, fun r h => ?_⟩
    injection h with h2
    subst h2
    exact Nat.le_refl _
  | dimref d =>
    intro c st _
    refine ⟨rfl, fun r h => ?_⟩
    injection h with h2
    subst h2
    exact Nat.le_refl _
  | indexed a ix _ =>
    intro c st _
    refine ⟨rfl, fun r h => ?_⟩
    injection h with h2
    subst h2
    exact Nat.le_refl _
  | windex w dsx =>
    intro c st _
    refine ⟨rfl, fun r h => ?_⟩
    injection h with h2
    subst h2
    exact Nat.le_refl _
  | add a b iha ihb =>
    intro c st hl
    obtain ⟨ea, la⟩ := iha c st hl
    constructor
    · simp only [core]
      rw [ea]
      cases h1 : core pickHead a c st with
      | error err => rfl
      | ok r1 =>
        obtain ⟨a1, v1, st1⟩ := r1
        simp only
        obtain ⟨eb, _⟩ := ihb c st1 (Nat.le_trans (la _ h1) hl)
        rw [eb]
    · intro r h
      rw [core] at h
      cases h1 : core pickHead a c st with
      | error err => rw [h1] at h; cases h
      | ok r1 =>
        obtain ⟨a1, v1, st1⟩ := r1
        rw [h1] at h
        simp only at h
        cases h2 : core pickHead b c st1 with
        | error err => rw [h2] at h; cases h
        | ok r2 =>
          obtain ⟨b1, v2, st2⟩ := r2
          rw [h2] at h
          simp only at h
          injection h with h3
          subst h3
          exact Nat.le_trans
            ((ihb c st1 (Nat.le_trans (la _ h1) hl)).2 (b1, v2, st2) h2) (la _ h1)
  | mul a b iha ihb =>
    intro c st hl
    obtain ⟨ea, la⟩ := iha c st hl
    constructor
    · simp only [core]
      rw [ea]
      cases h1 : core pickHead a c st with
      | error err => rfl
      | ok r1 =>
        obtain ⟨a1, v1, st1⟩ := r1
        simp only
        obtain ⟨eb, _⟩ := ihb c st1 (Nat.le_trans (la _ h1) hl)
        rw [eb]
    · intro r h
      rw [core] at h
      cases h1 : core pickHead a c st with
      | error err => rw [h1] at h; cases h
      | ok r1 =>
        obtain ⟨a1, v1, st1⟩ := r1
        rw [h1] at h
        simp only at h
        cases h2 : core pickHead b c st1 with
        | error err => rw [h2] at h; cases h
        | ok r2 =>
          obtain ⟨b1, v2, st2⟩ := r2
          rw [h2] at h
          simp only at h
          injection h with h3
          subst h3
          exact Nat.le_trans
            ((ihb c st1 (Nat.le_trans (la _ h1) hl)).2 (b1, v2, st2) h2) (la _ h1)
  | pair a b iha ihb =>
    intro c st hl
    obtain ⟨ea, la⟩ := iha c st hl
    constructor
    · simp only [core]
      rw [ea]
      cases h1 : core pickHead a c st with
      | error err => rfl
      | ok r1 =>
        obtain ⟨a1, v1, st1⟩ := r1
        simp only
        obtain ⟨eb, _⟩ := ihb c st1 (Nat.le_trans (la _ h1) hl)
        rw [eb]
    · intro r h
      rw [core] at h
      cases h1 : core pickHead a c st with
      | error err => rw [h1] at h; cases h
      | ok r1 =>
        obtain ⟨a1, v1, st1⟩ := r1
        rw [h1] at h
        simp only at h
        cases h2 : core pickHead b c st1 with
        | error err => rw [h2] at h; cases h
        | ok r2 =>
          obtain ⟨b1, v2, st2⟩ := r2
          rw [h2] at h
          simp only at h
          injection h with h3
          subst h3
          exact Nat.le_trans
            ((ihb c st1 (Nat.le_trans (la _ h1) hl)).2 (b1, v2, st2) h2) (la _ h1)
  | eqn op l rr ihl ihr =>
    intro c st hl
    obtain ⟨ea, la⟩ := ihl c st hl
    constructor
    · simp only [core]
      rw [ea]
      cases h1 : core pickHead l c st with
      | error err => rfl
      | ok r1 =>
        obtain ⟨l1, v1, st1⟩ := r1
        simp only
        obtain ⟨eb, _⟩ := ihr c st1 (Nat.le_trans (la _ h1) hl)
        rw [eb]
    · intro r h
      rw [core] at h
      cases h1 : core pickHead l c st with
      | error err => rw [h1] at h; cases h
      | ok r1 =>
        obtain ⟨l1, v1, st1⟩ := r1
        rw [h1] at h
        simp only at h
        cases h2 : core pickHead rr c st1 with
        | error err => rw [h2] at h; cases h
        | ok r2 =>
          obtain ⟨r1e, v2, st2⟩ := r2
          rw [h2] at h
          simp only at h
          injection h with h3
          subst h3
          exact Nat.le_trans
            ((ihr c st1 (Nat.le_trans (la _ h1) hl)).2 (r1e, v2, st2) h2) (la _ h1)
  | deriv b w0 dsx dt ih =>
    intro c st hl
    obtain ⟨ea, la⟩ := ih c st hl
    constructor
    · simp only [core]
      rw [ea]
      cases h1 : core pickHead b c st with
      | error err => rfl
      | ok r1 =>
        obtain ⟨b1, v1, st1⟩ := r1
        simp only
        have hlen1 : ((resolveW w0 dt st1).2.pool).length ≤ 1 := by
          rw [resolveW_pool]
          exact Nat.le_trans (la _ h1) hl
        simp only [lowerDeriv]
        rw [pick_eq_small p hp _ hlen1]
    · intro r h
      rw [core] at h
      cases h1 : core pickHead b c st with
      | error err => rw [h1] at h; cases h
      | ok r1 =>
        obtain ⟨b1, v1, st1⟩ := r1
        rw [h1] at h
        simp only at h
        obtain ⟨s, isp1, _, _, _, _, hpool⟩ :=
          lowerDeriv_shape pickHead b1 w0 dsx dt c v1 st1 r h
        have hb := la _ h1
        rcases hpool with ⟨rest, hpk, hrp, _⟩ | ⟨_, _, hrp, _⟩
        · cases hsp : st1.pool with
          | nil => rw [hsp] at hpk; cases hpk
          | cons a0 t0 =>
            rw [hsp] at hpk
            injection hpk with h5
            injection h5 with h6 h7
            rw [hrp, ← h7]
            have : t0.length ≤ (a0 :: t0).length := by
              simp
            rw [← hsp] at this
            exact Nat.le_trans this hb
        · rw [hrp]
          exact hb

/-- The pool-policy agreement lifted through the per-equation call. -/
theorem lowerEq_pick_head (p : Pick) (hp : PickValid p) (c : Cluster)
    (e : Expr) (st : St) :
    lowerEq p c e st = lowerEq pickHead c e st := by
  unfold lowerEq
  exact (core_pick_head p hp e c { st with pool := poolOf e } (poolOf_len e)).1

/-- The pool-policy agreement lifted through the equation loop body. -/
theorem lowerStep_pick_head (p : Pick) (hp : PickValid p) (c : Cluster)
    (a : Acc) (e : Expr) :
    lowerStep p c a e = lowerStep pickHead c a e := by
  unfold lowerStep
  rw [lowerEq_pick_head p hp]

/-- The pool-policy agreement lifted through the whole lowering. -/
theorem lowerAll_pick_head (p : Pick) (hp : PickValid p) (cs : List Cluster)
    (wc rc : Nat) :
    lowerAll p cs wc rc = lowerAll pickHead cs wc rc := by
  unfold lowerAll
  suffices hgen : ∀ (l : List Cluster) (a : Acc),
      l.foldlM (lowerCluster p) a = l.foldlM (lowerCluster pickHead) a by
    exact hgen cs _
  intro l
  induction l with
  | nil => intro a; rfl
  | cons c l ihl =>
    intro a
    rw [List.foldlM_cons, List.foldlM_cons]
    have hc : lowerCluster p a c = lowerCluster pickHead a c := by
      unfold lowerCluster
      have : c.exprs.foldlM (lowerStep p c) { a with buf := [] } =
          c.exprs.foldlM (lowerStep pickHead c) { a with buf := [] } := by
        have hfun : ∀ (es : List Expr) (a0 : Acc),
            es.foldlM (lowerStep p c) a0 = es.foldlM (lowerStep pickHead c) a0 := by
          intro es
          induction es with
          | nil => intro a0; rfl
          | cons e es ihe =>
            intro a0
            rw [List.foldlM_cons, List.foldlM_cons, lowerStep_pick_head p hp]
            cases lowerStep pickHead c a0 e with
            | error err => rfl
            | ok a1 => simp only [okBind]; exact ihe a1
        exact hfun c.exprs _
      rw [this]
    rw [hc]
    cases lowerCluster pickHead a c with
    | error err => rfl
    | ok a1 =>
      simp only [okBind]
      exact ihl a1

/-- C6: the pass is deterministic and independent of the order in which the
per-equation reuse pool yields symbols: for any two valid pop policies
(modelling any iteration order of the `set.pop()` on the reuse pool), the
whole lowering — including all minted weight and temporary symbol names —
produces identical output on identical input. -/
theorem lowering_pick_independent (p1 p2 : Pick) (hp1 : PickValid p1)
    (hp2 : PickValid p2) (fuseFn : List Cluster → List Cluster)
    (mode : Option String) (cs : List Cluster) (wc rc : Nat) :
    lowerIndexDerivatives fuseFn p1 mode cs wc rc =
      lowerIndexDerivatives fuseFn p2 mode cs wc rc := by
  unfold lowerIndexDerivatives
  rw [lowerAll_pick_head p1 hp1, lowerAll_pick_head p2 hp2]

/-- Witness for `lowering_pick_independent`: popping the pool from the head
and from the tail produce identical lowered output for `u = D(D(a))`. -/
theorem lowering_pick_independent_witness :
    lowerIndexDerivatives id pickHead none [cIn] 0 0 =
      lowerIndexDerivatives id pickLast none [cIn] 0 0 :=
  lowering_pick_independent pickHead pickLast pickValid_head pickValid_last
    id none [cIn] 0 0

/-- C3 counterexample: `Inc(q, Y)` has a right-hand side recorded with
multiplicity 1 in the lowering map, yet CDE drops it: after `Inc(q, X)` is
merged into `Inc(p, X)`, the global table maps `q`, and the later equation
with left side `q` is discarded regardless of its right-hand side's
multiplicity.  The claim that CDE never drops a multiplicity-1 equation is
false. -/
theorem c3_counterexample :
    (mlookup rhsY cexMapper = some [qsym]) ∧
    eIncQY ∈ cexCluster.exprs ∧
    cdeProcess cexMapper [cexCluster] = [⟨[eIncPX], ispX⟩] ∧
    ∀ c ∈ cdeProcess cexMapper [cexCluster], eIncQY ∉ c.exprs := by
  refine ⟨rfl, by decide, rfl, ?_⟩
  intro c hc
  rw [show cdeProcess cexMapper [cexCluster] = [⟨[eIncPX], ispX⟩] from rfl] at hc
  simp only [List.mem_singleton] at hc
  subst hc
  decide

end Devito
